import Mathlib

/-!
A shallow embedding of the LaTeX source-archive processing core of
`paper.py` (the `tex` / `tldr` properties of `ArxivPaper`), together with
theorems checking the specification's claims about it.

Text is modelled as `List Char`, raw file bytes as `List Nat`, and the
per-archive file table as an insertion-ordered association list, matching
Python `dict` semantics.  Scanning functions that advance by more than one
character per step are written with an explicit fuel argument (fuel =
input length always suffices, since every step consumes at least one
character); a fuel-irrelevance lemma recovers the natural unfolding
equations for the zero-overhead wrappers.
-/

set_option autoImplicit false

/-- Python `dict` insertion: replace the value if the key is present
(keeping its position), else append the new pair at the end. -/
def dictInsert {α β : Type} [BEq α] (k : α) (v : β) : List (α × β) → List (α × β)
  | [] => [(k, v)]
  | (k', v') :: rest => if k' == k then (k, v) :: rest else (k', v') :: dictInsert k v rest

/-- Whether `pat` occurs as a contiguous substring of `s`
(the semantics of `re.search` for a literal pattern). -/
def occursB (pat : List Char) : List Char → Bool
  | [] => pat.isEmpty
  | c :: cs => pat.isPrefixOf (c :: cs) || occursB pat cs

/-- One byte in the UTF-8 continuation range `0x80..0xBF`. -/
def isContByte (b : Nat) : Bool := 0x80 ≤ b && b ≤ 0xBF

/-- Fueled worker for CPython's `bytes.decode('utf-8', errors='ignore')`
(paper.py line 111): valid sequences are decoded, invalid byte sequences
are silently skipped (the maximal valid subpart of a truncated sequence
is consumed), and decoding never fails.  Overlong encodings, surrogates
and code points above `0x10FFFF` are invalid. -/
def decodeUtf8IgnoreF : Nat → List Nat → List Char
  | 0, _ => []
  | _ + 1, [] => []
  | fuel + 1, b :: rest =>
    if b < 0x80 then Char.ofNat b :: decodeUtf8IgnoreF fuel rest
    else if b < 0xC2 then decodeUtf8IgnoreF fuel rest
    else if b < 0xE0 then
      match rest with
      | [] => []
      | b2 :: rest2 =>
        if isContByte b2 then
          Char.ofNat ((b - 0xC0) * 0x40 + (b2 - 0x80)) :: decodeUtf8IgnoreF fuel rest2
        else decodeUtf8IgnoreF fuel rest
    else if b < 0xF0 then
      match rest with
      | [] => []
      | b2 :: rest2 =>
        if (if b = 0xE0 then 0xA0 ≤ b2 && b2 ≤ 0xBF
            else if b = 0xED then 0x80 ≤ b2 && b2 ≤ 0x9F
            else isContByte b2) then
          match rest2 with
          | [] => []
          | b3 :: rest3 =>
            if isContByte b3 then
              Char.ofNat ((b - 0xE0) * 0x1000 + (b2 - 0x80) * 0x40 + (b3 - 0x80)) ::
                decodeUtf8IgnoreF fuel rest3
            else decodeUtf8IgnoreF fuel rest2
        else decodeUtf8IgnoreF fuel rest
    else if b < 0xF5 then
      match rest with
      | [] => []
      | b2 :: rest2 =>
        if (if b = 0xF0 then 0x90 ≤ b2 && b2 ≤ 0xBF
            else if b = 0xF4 then 0x80 ≤ b2 && b2 ≤ 0x8F
            else isContByte b2) then
          match rest2 with
          | [] => []
          | b3 :: rest3 =>
            if isContByte b3 then
              match rest3 with
              | [] => []
              | b4 :: rest4 =>
                if isContByte b4 then
                  Char.ofNat ((b - 0xF0) * 0x40000 + (b2 - 0x80) * 0x1000 +
                      (b3 - 0x80) * 0x40 + (b4 - 0x80)) :: decodeUtf8IgnoreF fuel rest4
                else decodeUtf8IgnoreF fuel rest3
            else decodeUtf8IgnoreF fuel rest2
        else decodeUtf8IgnoreF fuel rest
      else decodeUtf8IgnoreF fuel rest

/-- `bytes.decode('utf-8', errors='ignore')` on byte lists. -/
def decodeUtf8Ignore (s : List Nat) : List Char := decodeUtf8IgnoreF s.length s

/-- Fueled left-to-right replacement of every non-overlapping occurrence of
`pat` by `rep` (Python `str.replace`, also `re.sub` with a literal
pattern). -/
def replaceAllF (pat rep : List Char) : Nat → List Char → List Char
  | 0, s => s
  | _ + 1, [] => []
  | fuel + 1, c :: cs =>
    if pat.isPrefixOf (c :: cs) then rep ++ replaceAllF pat rep fuel ((c :: cs).drop pat.length)
    else c :: replaceAllF pat rep fuel cs

/-- Python `str.replace pat rep` on character lists. -/
def replaceAll (pat rep s : List Char) : List Char := replaceAllF pat rep s.length s

/-- Step 1 of the noise stripper, `re.sub(r'%.*\n', '\n', content)`
(paper.py line 113): from every `%` that is followed by a newline, delete
up to and including that newline and emit a single newline.  A `%` with no
newline after it matches nothing and is kept. -/
def stripLineCommentsF : Nat → List Char → List Char
  | 0, s => s
  | _ + 1, [] => []
  | fuel + 1, c :: cs =>
    if c = '%' then
      match cs.dropWhile (· != '\n') with
      | _ :: rest => '\n' :: stripLineCommentsF fuel rest
      | [] => c :: stripLineCommentsF fuel cs
    else c :: stripLineCommentsF fuel cs

/-- Wrapper for `stripLineCommentsF` with sufficient fuel. -/
def stripLineComments (s : List Char) : List Char := stripLineCommentsF s.length s

/-- Drop everything up to and including the first occurrence of `pat`;
`none` when `pat` does not occur. -/
def dropThrough (pat : List Char) : List Char → Option (List Char)
  | [] => none
  | c :: cs =>
    if pat.isPrefixOf (c :: cs) then some ((c :: cs).drop pat.length) else dropThrough pat cs

/-- Fueled removal of `openTag ... closeTag` blocks with non-greedy
multi-line matching (`re.sub(r'TAG.*?END', '', content, flags=re.DOTALL)`,
paper.py lines 114-117): each `openTag` occurrence together with
everything up to the nearest following `closeTag` is deleted; an
unterminated `openTag` is kept. -/
def stripBlocksF (openTag closeTag : List Char) : Nat → List Char → List Char
  | 0, s => s
  | _ + 1, [] => []
  | fuel + 1, c :: cs =>
    if openTag.isPrefixOf (c :: cs) then
      match dropThrough closeTag ((c :: cs).drop openTag.length) with
      | some rest => stripBlocksF openTag closeTag fuel rest
      | none => c :: stripBlocksF openTag closeTag fuel cs
    else c :: stripBlocksF openTag closeTag fuel cs

/-- Wrapper for `stripBlocksF` with sufficient fuel. -/
def stripBlocks (openTag closeTag s : List Char) : List Char :=
  stripBlocksF openTag closeTag s.length s

/-- Step 2: remove comment environments. -/
def stripCommentBlocks (s : List Char) : List Char :=
  stripBlocks ("\\begin\x7bcomment\x7d".data) ("\\end\x7bcomment\x7d".data) s

/-- Step 3: remove conditional-false blocks. -/
def stripIffalseBlocks (s : List Char) : List Char :=
  stripBlocks ("\\iffalse".data) ("\\fi".data) s

/-- Worker for step 4, `re.sub(r'\n+', '\n', content)` (line 119): a run
of newlines collapses to one.  The flag records whether the previous
emitted character was a newline of the current run. -/
def collapseNewlinesGo (prevNl : Bool) : List Char → List Char
  | [] => []
  | c :: cs =>
    if c = '\n' then
      if prevNl then collapseNewlinesGo true cs else '\n' :: collapseNewlinesGo true cs
    else c :: collapseNewlinesGo false cs

/-- Step 4: collapse newline runs. -/
def collapseNewlines (s : List Char) : List Char := collapseNewlinesGo false s

/-- Step 5, `re.sub(r'\\\\', '', content)` (line 120): delete every
(non-overlapping) pair of consecutive backslash characters. -/
def removeLineBreakMarkers : List Char → List Char
  | [] => []
  | '\\' :: '\\' :: cs => removeLineBreakMarkers cs
  | c :: cs => c :: removeLineBreakMarkers cs

/-- A horizontal whitespace character of the class `[ \t\r\f]`. -/
def isHws (c : Char) : Bool := c = ' ' || c = '\t' || c = '\r' || c = '\x0c'

/-- Fueled step 6, `re.sub(r'[ \t\r\f]{3,}', ' ', content)` (line 122): a
maximal run of three or more horizontal whitespace characters becomes a
single space; shorter runs are kept. -/
def collapseSpacesF : Nat → List Char → List Char
  | 0, s => s
  | _ + 1, [] => []
  | fuel + 1, c :: cs =>
    if isHws c && (match cs with
      | a :: b :: _ => isHws a && isHws b
      | _ => false) then
      ' ' :: collapseSpacesF fuel (cs.dropWhile isHws)
    else c :: collapseSpacesF fuel cs

/-- Wrapper for `collapseSpacesF` with sufficient fuel. -/
def collapseSpaces (s : List Char) : List Char := collapseSpacesF s.length s

/-- The full noise-stripping transform of paper.py lines 112-122, steps
applied in source order. -/
def stripNoise (s : List Char) : List Char :=
  collapseSpaces (removeLineBreakMarkers (collapseNewlines
    (stripIffalseBlocks (stripCommentBlocks (stripLineComments s)))))

/-- The regex capture of `\input\{(.+?)\}` / `\include\{(.+?)\}` right
after the opening brace: the shortest non-empty newline-free character
run followed by a closing brace.  Returns the captured name and the text
after the closing brace. -/
def captureArg (text : List Char) : Option (List Char × List Char) :=
  match text with
  | [] => none
  | c :: rest =>
    match text.dropWhile (· != '\x7d') with
    | [] => none
    | _ :: _ =>
      let pre := rest.takeWhile (· != '\x7d')
      match rest.dropWhile (· != '\x7d') with
      | [] => none
      | _ :: after =>
        if (c :: pre).contains '\n' then none else some (c :: pre, after)

/-- Fueled `re.findall` for the pattern `CMD(.+?)\}` where `CMD` is the
literal command-with-opening-brace (paper.py lines 132-133): scan left to
right; at each occurrence of `cmd` try to capture an argument, continuing
after the full match on success and at the next character on failure. -/
def findCommandArgsF (cmd : List Char) : Nat → List Char → List (List Char)
  | 0, _ => []
  | _ + 1, [] => []
  | fuel + 1, c :: cs =>
    if cmd.isPrefixOf (c :: cs) then
      match captureArg ((c :: cs).drop cmd.length) with
      | some (arg, rest) => arg :: findCommandArgsF cmd fuel rest
      | none => findCommandArgsF cmd fuel cs
    else findCommandArgsF cmd fuel cs

/-- Wrapper for `findCommandArgsF` with sufficient fuel. -/
def findCommandArgs (cmd s : List Char) : List (List Char) := findCommandArgsF cmd s.length s

/-- The literal text `\input{f}`. -/
def inputMarker (f : List Char) : List Char := ("\\input\x7b".data) ++ f ++ ("\x7d".data)

/-- The literal text `\include{f}`. -/
def includeMarker (f : List Char) : List Char := ("\\include\x7b".data) ++ f ++ ("\x7d".data)

/-- The include names discovered in a root document (paper.py lines
132-133): all `\input{...}` captures followed by all `\include{...}`
captures, in scan order. -/
def discoveredNames (src : List Char) : List (List Char) :=
  findCommandArgs ("\\input\x7b".data) src ++ findCommandArgs ("\\include\x7b".data) src

/-- Append `.tex` to an include name unless already present
(paper.py lines 135-138). -/
def normIncludeName (f : List Char) : List Char :=
  if (".tex".data).isSuffixOf f then f else f ++ (".tex".data)

/-- The substituted text for an include name: the table entry of the
normalised file name, or empty when absent (`file_contents.get(file_name,
'')`, paper.py line 140). -/
def includeValue (table : List (List Char × List Char)) (f : List Char) : List Char :=
  (List.lookup (normIncludeName f) table).getD []

/-- The include flattener (paper.py lines 132-141): for each discovered
name `f`, in order, replace every occurrence of the literal `\input{f}`
by the target file's content (empty when the target is not in the table).
Note the replaced literal is always the `\input` form, also for names
discovered via `\include`, and each replacement rescans the whole
string built so far. -/
def flattenIncludes (src : List Char) (table : List (List Char × List Char)) : List Char :=
  (discoveredNames src).foldl
    (fun s f => replaceAll (inputMarker f) (includeValue table f) s)
    src

/-- The `.tex` member names of an archive, in enumeration order
(paper.py line 78). -/
def texFileNames (archive : List (List Char × List Nat)) : List (List Char) :=
  (archive.map Prod.fst).filter (fun n => (".tex".data).isSuffixOf n)

/-- The `.bbl` member names of an archive (paper.py line 84). -/
def bblNames (archive : List (List Char × List Nat)) : List (List Char) :=
  (archive.map Prod.fst).filter (fun n => (".bbl".data).isSuffixOf n)

/-- The root candidate derived from a `.bbl` file name (paper.py lines
94-95): delete every occurrence of the substring `.bbl`, then append
`.tex`. -/
def bblToTexCandidate (b : List Char) : List Char :=
  replaceAll (".bbl".data) [] b ++ (".tex".data)

/-- The name-based part of the main-document resolver (paper.py lines
85-103): zero `.bbl` files resolve to the unique `.tex` file if there is
exactly one; one `.bbl` file resolves to its candidate when that is a
known `.tex` name; multiple `.bbl` files resolve to nothing. -/
def mainTexByBbl (archive : List (List Char × List Nat)) : Option (List Char) :=
  match bblNames archive with
  | [] => if (texFileNames archive).length > 1 then none else (texFileNames archive).head?
  | [b] =>
    let mt := bblToTexCandidate b
    if (texFileNames archive).contains mt then some mt else none
  | _ => none

/-- The decoded, noise-stripped content of archive member `t`
(paper.py lines 110-122). -/
def strippedOf (archive : List (List Char × List Nat)) (t : List Char) : List Char :=
  stripNoise (decodeUtf8Ignore ((List.lookup t archive).getD []))

/-- The full main-document resolver (paper.py lines 85-126): the
name-based rule first; otherwise the first `.tex` file, in enumeration
order, whose stripped content contains `\begin{document}`. -/
def mainTex (archive : List (List Char × List Nat)) : Option (List Char) :=
  match mainTexByBbl archive with
  | some m => some m
  | none =>
    (texFileNames archive).find?
      (fun t => occursB ("\\begin\x7bdocument\x7d".data) (strippedOf archive t))

/-- The per-file content table built by the extraction loop
(paper.py lines 108-127), keyed by member name in enumeration order. -/
def texFileContents (archive : List (List Char × List Nat)) : List (List Char × List Char) :=
  (texFileNames archive).foldl (fun m t => dictInsert t (strippedOf archive t) m) []

/-- The synthetic `"all"` value (paper.py lines 129-145): the flattened
root document when a root was resolved, else null. -/
def texAllEntry (archive : List (List Char × List Nat)) : Option (List Char) :=
  match mainTex archive with
  | some mt =>
    some (flattenIncludes ((List.lookup mt (texFileContents archive)).getD [])
      (texFileContents archive))
  | none => none

/-- The result of the `tex` property from the point the archive's member
list is available (paper.py lines 78-146): `none` models the `None`
return when there are no `.tex` members; otherwise the file table with
the synthetic `"all"` entry, whose value is the flattened root document
or `none` when no root was resolved. -/
def texOfArchive (archive : List (List Char × List Nat)) :
    Option (List (List Char × Option (List Char))) :=
  if texFileNames archive = [] then none
  else
    some (dictInsert ("all".data) (texAllEntry archive)
      ((texFileContents archive).map (fun kv => (kv.1, some kv.2))))

/-- Python `"\n".join(values)` over the table's values in order
(paper.py line 155): `none` models the `TypeError` raised when any value
is `None`. -/
def joinedValues (table : List (List Char × Option (List Char))) : Option (List Char) :=
  if (table.map Prod.snd).all Option.isSome then
    some (List.intercalate ("\n".data) (table.filterMap Prod.snd))
  else none

/-- The content-selection step of the `tldr` property (paper.py lines
152-155): the `"all"` entry if non-null, else the join of all values.
The outer `none` models an uncaught exception; `some none` is the path
where `tex` itself was `None` and no content is selected. -/
def tldrContentResult (archive : List (List Char × List Nat)) :
    Option (Option (List Char)) :=
  match texOfArchive archive with
  | none => some none
  | some table =>
    match List.lookup ("all".data) table with
    | some (some c) => some (some c)
    | _ => Option.map some (joinedValues table)

/-- The boundary alternation `(\\section|\\end\{document\}|\\bibliography|\\appendix)`
of paper.py lines 166-171, tried in order at one position; `none` when no
literal alternative matches there. -/
def boundaryHead (r : List Char) : Option (List Char) :=
  if ("\\section".data).isPrefixOf r then some ("\\section".data)
  else if ("\\end\x7bdocument\x7d".data).isPrefixOf r then some ("\\end\x7bdocument\x7d".data)
  else if ("\\bibliography".data).isPrefixOf r then some ("\\bibliography".data)
  else if ("\\appendix".data).isPrefixOf r then some ("\\appendix".data)
  else none

/-- The lazy `.*?(BOUNDARY|$)` tail of the section regexes: consume
characters until the first position where a boundary alternative (or the
end-of-text anchor, which also matches just before a final newline)
succeeds; the matched boundary literal is part of the returned span,
the anchor contributes nothing. -/
def sectionSpan : List Char → List Char
  | [] => []
  | c :: cs =>
    match boundaryHead (c :: cs) with
    | some b => b
    | none => if c = '\n' && cs.isEmpty then [] else c :: sectionSpan cs

/-- `re.search(heading + r'.*?(boundary|$)', content, flags=re.DOTALL)`
returning `group(0)` (paper.py lines 166-173), with `""` when the heading
does not occur: the span starts at the first occurrence of the literal
`heading` and extends lazily to the first boundary. -/
def extractSectionCmd (heading : List Char) : List Char → List Char
  | [] => []
  | c :: cs =>
    if heading.isPrefixOf (c :: cs) then heading ++ sectionSpan ((c :: cs).drop heading.length)
    else extractSectionCmd heading cs

/-- Reference semantics for the include flattener, modelled from the
specification's description of a single non-recursive pass: scan the root
once, left to right; each complete `\input{f}` marker whose name `f` was
discovered is replaced by the target file's content (empty when missing),
everything else — including the substituted content — is emitted
verbatim and never rescanned. -/
def simulSubstF (table : List (List Char × List Char)) (names : List (List Char)) :
    Nat → List Char → List Char
  | 0, s => s
  | _ + 1, [] => []
  | fuel + 1, c :: cs =>
    match names.find? (fun f => (inputMarker f).isPrefixOf (c :: cs)) with
    | some f =>
      includeValue table f ++
        simulSubstF table names fuel ((c :: cs).drop (inputMarker f).length)
    | none => c :: simulSubstF table names fuel cs

/-- Wrapper for `simulSubstF` with sufficient fuel. -/
def simulSubst (table : List (List Char × List Char)) (names : List (List Char))
    (s : List Char) : List Char :=
  simulSubstF table names s.length s

/-- A well-formed include name: no backslash and no closing brace.  All
names produced by ordinary LaTeX sources satisfy this; the closing-brace
condition reflects that the regex capture stops at the first `}`. -/
def wfName (f : List Char) : Prop := '\\' ∉ f ∧ '\x7d' ∉ f

instance instDecidableWfName (f : List Char) : Decidable (wfName f) :=
  inferInstanceAs (Decidable (('\\' ∉ f) ∧ ('\x7d' ∉ f)))

/-- Whether `s` starts with a complete `\input{f}` or `\include{f}`
marker for some `f ∈ names`. -/
def headsMarkerB (names : List (List Char)) (s : List Char) : Bool :=
  names.any (fun f => (inputMarker f).isPrefixOf s || (includeMarker f).isPrefixOf s)

/-- Every backslash in `s` begins a complete `\input`/`\include` marker
with a name from `names`. -/
def invariantB (names : List (List Char)) : List Char → Bool
  | [] => true
  | c :: cs => (if c = '\\' then headsMarkerB names (c :: cs) else true) && invariantB names cs

theorem isPrefixOf_iff_ex {p s : List Char} :
    p.isPrefixOf s = true ↔ ∃ t, s = p ++ t := by
  induction p generalizing s with
  | nil => simp [List.isPrefixOf]
  | cons a as ih =>
    cases s with
    | nil => simp [List.isPrefixOf]
    | cons b bs =>
      simp only [List.isPrefixOf, Bool.and_eq_true, beq_iff_eq, ih, List.cons_append,
        List.cons.injEq]
      aesop

theorem isPrefixOf_self_append (p t : List Char) : p.isPrefixOf (p ++ t) = true :=
  isPrefixOf_iff_ex.mpr ⟨t, rfl⟩

theorem inputMarker_ne_nil (f : List Char) : inputMarker f ≠ [] := by
  simp [inputMarker]

theorem length_inputMarker (f : List Char) : (inputMarker f).length = f.length + 8 := by
  simp [inputMarker]

theorem length_includeMarker (f : List Char) : (includeMarker f).length = f.length + 10 := by
  simp [includeMarker]

theorem replaceAllF_irrel (pat rep : List Char) (hpat : pat ≠ []) :
    ∀ f₁ f₂ s, s.length ≤ f₁ → s.length ≤ f₂ →
      replaceAllF pat rep f₁ s = replaceAllF pat rep f₂ s := by
  intro f₁
  induction f₁ with
  | zero =>
    intro f₂ s h₁ _
    have hs : s = [] := List.length_eq_zero.mp (Nat.le_zero.mp h₁)
    subst hs
    cases f₂ <;> rfl
  | succ k ih =>
    intro f₂ s h₁ h₂
    cases s with
    | nil => cases f₂ <;> rfl
    | cons c cs =>
      cases f₂ with
      | zero => simp at h₂
      | succ m =>
        have hplen : 1 ≤ pat.length := by
          cases pat with
          | nil => exact absurd rfl hpat
          | cons _ _ => simp
        simp only [replaceAllF]
        by_cases hp : pat.isPrefixOf (c :: cs) = true
        · rw [if_pos hp, if_pos hp]
          have hlen : ((c :: cs).drop pat.length).length ≤ k := by
            simp only [List.length_drop, List.length_cons]
            simp only [List.length_cons] at h₁
            omega
          have hlen2 : ((c :: cs).drop pat.length).length ≤ m := by
            simp only [List.length_drop, List.length_cons]
            simp only [List.length_cons] at h₂
            omega
          rw [ih m _ hlen hlen2]
        · rw [if_neg hp, if_neg hp]
          have hlen : cs.length ≤ k := by simp only [List.length_cons] at h₁; omega
          have hlen2 : cs.length ≤ m := by simp only [List.length_cons] at h₂; omega
          rw [ih m _ hlen hlen2]

theorem replaceAll_nil (pat rep : List Char) : replaceAll pat rep [] = [] := rfl

theorem replaceAll_cons (pat rep : List Char) (hpat : pat ≠ []) (c : Char) (cs : List Char) :
    replaceAll pat rep (c :: cs) =
      if pat.isPrefixOf (c :: cs) then rep ++ replaceAll pat rep ((c :: cs).drop pat.length)
      else c :: replaceAll pat rep cs := by
  show replaceAllF pat rep (cs.length + 1) (c :: cs) = _
  have h1 : 1 ≤ pat.length := by
    cases pat with
    | nil => exact absurd rfl hpat
    | cons _ _ => simp
  simp only [replaceAllF]
  by_cases hp : pat.isPrefixOf (c :: cs) = true
  · rw [if_pos hp, if_pos hp]
    have := replaceAllF_irrel pat rep hpat cs.length ((c :: cs).drop pat.length).length
      ((c :: cs).drop pat.length)
      (by simp only [List.length_drop, List.length_cons]; omega) (Nat.le_refl _)
    rw [this]
    rfl
  · rw [if_neg hp, if_neg hp]
    rfl

theorem occursB_of_tail {pat : List Char} {c : Char} {cs : List Char}
    (h : occursB pat cs = true) : occursB pat (c :: cs) = true := by
  simp [occursB, h]

theorem occursB_append_right {pat b : List Char} (a : List Char)
    (h : occursB pat b = true) : occursB pat (a ++ b) = true := by
  induction a with
  | nil => simpa using h
  | cons c cs ih => exact occursB_of_tail ih

theorem occursB_drop {pat s : List Char} {k : Nat}
    (h : occursB pat (s.drop k) = true) : occursB pat s = true := by
  conv_lhs => rw [← List.take_append_drop k s]
  exact occursB_append_right _ h

theorem head_eq_of_isPrefixOf {a c : Char} {p s : List Char}
    (h : (a :: p).isPrefixOf (c :: s) = true) : a = c := by
  obtain ⟨t, ht⟩ := isPrefixOf_iff_ex.mp h
  exact (List.cons.injEq _ _ _ _ ▸ ht).1.symm

theorem not_isPrefixOf_of_head_ne {a c : Char} {p s : List Char} (h : a ≠ c) :
    (a :: p).isPrefixOf (c :: s) = false := by
  cases hp : (a :: p).isPrefixOf (c :: s) with
  | false => rfl
  | true => exact absurd (head_eq_of_isPrefixOf hp) h

theorem occursB_append_nobs {p' a : List Char} (ha : '\\' ∉ a) (b : List Char) :
    occursB ('\\' :: p') (a ++ b) = occursB ('\\' :: p') b := by
  induction a with
  | nil => rfl
  | cons c cs ih =>
    have hc : c ≠ '\\' := fun hcc => ha (hcc ▸ List.mem_cons_self c cs)
    have hcs : '\\' ∉ cs := fun hm => ha (List.mem_cons_of_mem c hm)
    simp only [List.cons_append, occursB, not_isPrefixOf_of_head_ne (Ne.symm hc),
      Bool.false_or]
    exact ih hcs

theorem inputMarker_eq (f : List Char) :
    inputMarker f = '\\' :: 'i' :: 'n' :: 'p' :: 'u' :: 't' :: '\x7b' :: (f ++ ['\x7d']) := rfl

theorem includeMarker_eq (f : List Char) :
    includeMarker f =
      '\\' :: 'i' :: 'n' :: 'c' :: 'l' :: 'u' :: 'd' :: 'e' :: '\x7b' :: (f ++ ['\x7d']) := rfl

theorem brace_arg_eq {f h t₁ t₂ : List Char} (hf : '\x7d' ∉ f) (hh : '\x7d' ∉ h)
    (heq : f ++ '\x7d' :: t₁ = h ++ '\x7d' :: t₂) : f = h := by
  induction f generalizing h with
  | nil =>
    cases h with
    | nil => rfl
    | cons c h' =>
      simp only [List.nil_append, List.cons_append, List.cons.injEq] at heq
      exact absurd (heq.1 ▸ List.mem_cons_self c h') hh
  | cons a f' ih =>
    cases h with
    | nil =>
      simp only [List.nil_append, List.cons_append, List.cons.injEq] at heq
      exact absurd (heq.1.symm ▸ List.mem_cons_self a f') hf
    | cons c h' =>
      simp only [List.cons_append, List.cons.injEq] at heq
      have hf' : '\x7d' ∉ f' := fun hm => hf (List.mem_cons_of_mem a hm)
      have hh' : '\x7d' ∉ h' := fun hm => hh (List.mem_cons_of_mem c hm)
      rw [heq.1, ih hf' hh' heq.2]

theorem markers_eq {f h s : List Char} (hf : '\x7d' ∉ f) (hh : '\x7d' ∉ h)
    (h1 : (inputMarker f).isPrefixOf s = true) (h2 : (inputMarker h).isPrefixOf s = true) :
    f = h := by
  obtain ⟨t₁, ht₁⟩ := isPrefixOf_iff_ex.mp h1
  obtain ⟨t₂, ht₂⟩ := isPrefixOf_iff_ex.mp h2
  rw [ht₁] at ht₂
  simp only [inputMarker_eq, List.cons_append, List.cons.injEq, List.append_assoc,
    List.cons_append, true_and] at ht₂
  exact brace_arg_eq hf hh (by simpa using ht₂)

theorem input_include_clash {f h s : List Char}
    (h1 : (inputMarker f).isPrefixOf s = true) (h2 : (includeMarker h).isPrefixOf s = true) :
    False := by
  obtain ⟨t₁, ht₁⟩ := isPrefixOf_iff_ex.mp h1
  obtain ⟨t₂, ht₂⟩ := isPrefixOf_iff_ex.mp h2
  rw [ht₁] at ht₂
  simp only [inputMarker_eq, includeMarker_eq, List.cons_append, List.cons.injEq] at ht₂
  exact absurd ht₂.2.2.2.1 (by decide)

theorem invariantB_tail {N : List (List Char)} {c : Char} {cs : List Char}
    (h : invariantB N (c :: cs) = true) : invariantB N cs = true := by
  simp only [invariantB, Bool.and_eq_true] at h
  exact h.2

theorem invariantB_drop {N : List (List Char)} {s : List Char} (k : Nat)
    (h : invariantB N s = true) : invariantB N (s.drop k) = true := by
  induction k generalizing s with
  | zero => simpa using h
  | succ k ih =>
    cases s with
    | nil => simpa using h
    | cons c cs => exact ih (invariantB_tail h)

theorem invariantB_append_nobs {N : List (List Char)} {a b : List Char}
    (ha : '\\' ∉ a) (hb : invariantB N b = true) : invariantB N (a ++ b) = true := by
  induction a with
  | nil => simpa using hb
  | cons c cs ih =>
    have hc : c ≠ '\\' := fun hcc => ha (hcc ▸ List.mem_cons_self c cs)
    have hcs : '\\' ∉ cs := fun hm => ha (List.mem_cons_of_mem c hm)
    simp only [List.cons_append, invariantB, if_neg hc, Bool.true_and]
    exact ih hcs

theorem headsMarkerB_of_invariantB {N : List (List Char)} {cs : List Char}
    (h : invariantB N ('\\' :: cs) = true) : headsMarkerB N ('\\' :: cs) = true := by
  simp only [invariantB, if_pos rfl, Bool.and_eq_true] at h
  exact h.1

theorem headsMarkerB_elim {N : List (List Char)} {s : List Char}
    (h : headsMarkerB N s = true) :
    ∃ f ∈ N, (inputMarker f).isPrefixOf s = true ∨ (includeMarker f).isPrefixOf s = true := by
  simp only [headsMarkerB, List.any_eq_true, Bool.or_eq_true] at h
  exact h

theorem invariantB_cons_bs {N : List (List Char)} {cs : List Char}
    (hh : headsMarkerB N ('\\' :: cs) = true) (ht : invariantB N cs = true) :
    invariantB N ('\\' :: cs) = true := by
  rw [invariantB, if_pos rfl, hh, ht]
  rfl

theorem invariantB_cons_not_bs {N : List (List Char)} {c : Char} {cs : List Char}
    (hc : c ≠ '\\') (ht : invariantB N cs = true) : invariantB N (c :: cs) = true := by
  rw [invariantB, if_neg hc, Bool.true_and]
  exact ht

theorem inputMarker_append_form (f X : List Char) :
    inputMarker f ++ X =
      '\\' :: (('i' :: 'n' :: 'p' :: 'u' :: 't' :: '\x7b' :: []) ++ (f ++ '\x7d' :: X)) := by
  simp [inputMarker_eq]

theorem includeMarker_append_form (f X : List Char) :
    includeMarker f ++ X =
      '\\' :: (('i' :: 'n' :: 'c' :: 'l' :: 'u' :: 'd' :: 'e' :: '\x7b' :: []) ++
        (f ++ '\x7d' :: X)) := by
  simp [includeMarker_eq]

theorem invariantB_inputMarker_append {N : List (List Char)} {f X : List Char}
    (hfN : f ∈ N) (hf : '\\' ∉ f) (hX : invariantB N X = true) :
    invariantB N (inputMarker f ++ X) = true := by
  rw [inputMarker_append_form]
  apply invariantB_cons_bs
  · rw [← inputMarker_append_form]
    simp only [headsMarkerB, List.any_eq_true, Bool.or_eq_true]
    exact ⟨f, hfN, Or.inl (isPrefixOf_self_append _ _)⟩
  · exact invariantB_append_nobs (by decide)
      (invariantB_append_nobs hf (invariantB_cons_not_bs (by decide) hX))

theorem invariantB_includeMarker_append {N : List (List Char)} {f X : List Char}
    (hfN : f ∈ N) (hf : '\\' ∉ f) (hX : invariantB N X = true) :
    invariantB N (includeMarker f ++ X) = true := by
  rw [includeMarker_append_form]
  apply invariantB_cons_bs
  · rw [← includeMarker_append_form]
    simp only [headsMarkerB, List.any_eq_true, Bool.or_eq_true]
    exact ⟨f, hfN, Or.inr (isPrefixOf_self_append _ _)⟩
  · exact invariantB_append_nobs (by decide)
      (invariantB_append_nobs hf (invariantB_cons_not_bs (by decide) hX))

theorem inputMarker_bs (g : List Char) : ∃ p', inputMarker g = '\\' :: p' :=
  ⟨_, inputMarker_eq g⟩

theorem replaceAll_cons_not_bs {pat rep : List Char} (hbs : ∃ p', pat = '\\' :: p')
    {c : Char} (hc : c ≠ '\\') (t : List Char) :
    replaceAll pat rep (c :: t) = c :: replaceAll pat rep t := by
  obtain ⟨p', hp⟩ := hbs
  rw [replaceAll_cons pat rep (by rw [hp]; simp) c t]
  rw [if_neg]
  rw [hp]
  simp [not_isPrefixOf_of_head_ne (Ne.symm hc)]

theorem replaceAll_append_nobs {pat rep : List Char} (hbs : ∃ p', pat = '\\' :: p')
    {u : List Char} (hu : '\\' ∉ u) (t : List Char) :
    replaceAll pat rep (u ++ t) = u ++ replaceAll pat rep t := by
  induction u with
  | nil => rfl
  | cons c cs ih =>
    have hc : c ≠ '\\' := fun hcc => hu (hcc ▸ List.mem_cons_self c cs)
    have hcs : '\\' ∉ cs := fun hm => hu (List.mem_cons_of_mem c hm)
    rw [List.cons_append, replaceAll_cons_not_bs hbs hc, ih hcs, List.cons_append]

theorem replaceAll_marker_head_match {g rep t : List Char} :
    replaceAll (inputMarker g) rep (inputMarker g ++ t) =
      rep ++ replaceAll (inputMarker g) rep t := by
  have hnn : inputMarker g ≠ [] := inputMarker_ne_nil g
  cases hform : inputMarker g ++ t with
  | nil => exact absurd (List.append_eq_nil.mp hform).1 hnn
  | cons c cs =>
    rw [← hform, hform, replaceAll_cons _ _ hnn c cs,
      if_pos (by rw [← hform]; exact isPrefixOf_self_append _ _), ← hform, List.drop_left]

theorem replaceAll_marker_head_input {g rep f t : List Char} (hf : '\\' ∉ f)
    (hne : (inputMarker g).isPrefixOf (inputMarker f ++ t) = false) :
    replaceAll (inputMarker g) rep (inputMarker f ++ t) =
      inputMarker f ++ replaceAll (inputMarker g) rep t := by
  rw [inputMarker_append_form f t]
  rw [replaceAll_cons _ _ (inputMarker_ne_nil g) _ _]
  rw [if_neg (by rw [← inputMarker_append_form f t]; simp [hne])]
  rw [replaceAll_append_nobs (inputMarker_bs g)
    (show ('\\' : Char) ∉ ['i', 'n', 'p', 'u', 't', '\x7b'] by decide) (f ++ '\x7d' :: t)]
  rw [replaceAll_append_nobs (inputMarker_bs g) hf ('\x7d' :: t)]
  rw [replaceAll_cons_not_bs (inputMarker_bs g) (by decide) t]
  rw [inputMarker_append_form f (replaceAll (inputMarker g) rep t)]

theorem replaceAll_marker_head_include {g rep f t : List Char} (hf : '\\' ∉ f)
    (hne : (inputMarker g).isPrefixOf (includeMarker f ++ t) = false) :
    replaceAll (inputMarker g) rep (includeMarker f ++ t) =
      includeMarker f ++ replaceAll (inputMarker g) rep t := by
  rw [includeMarker_append_form f t]
  rw [replaceAll_cons _ _ (inputMarker_ne_nil g) _ _]
  rw [if_neg (by rw [← includeMarker_append_form f t]; simp [hne])]
  rw [replaceAll_append_nobs (inputMarker_bs g)
    (show ('\\' : Char) ∉ ['i', 'n', 'c', 'l', 'u', 'd', 'e', '\x7b'] by decide)
    (f ++ '\x7d' :: t)]
  rw [replaceAll_append_nobs (inputMarker_bs g) hf ('\x7d' :: t)]
  rw [replaceAll_cons_not_bs (inputMarker_bs g) (by decide) t]
  rw [includeMarker_append_form f (replaceAll (inputMarker g) rep t)]

theorem occursB_nil (pat : List Char) : occursB pat [] = pat.isEmpty := rfl

theorem occursB_cons_eq (pat : List Char) (c : Char) (cs : List Char) :
    occursB pat (c :: cs) = (pat.isPrefixOf (c :: cs) || occursB pat cs) := rfl

theorem occursB_of_isPrefixOf {pat s : List Char} (h : pat.isPrefixOf s = true) :
    occursB pat s = true := by
  cases s with
  | nil =>
    cases pat with
    | nil => rfl
    | cons a as => simp [List.isPrefixOf] at h
  | cons c cs => simp [occursB_cons_eq, h]

theorem occursB_append_nobs_abs {pat : List Char} (hbs : ∃ p', pat = '\\' :: p')
    {a : List Char} (ha : '\\' ∉ a) (b : List Char) :
    occursB pat (a ++ b) = occursB pat b := by
  obtain ⟨p', rfl⟩ := hbs
  exact occursB_append_nobs ha b

theorem occursB_cons_not_bs {pat : List Char} (hbs : ∃ p', pat = '\\' :: p')
    {c : Char} (hc : c ≠ '\\') (b : List Char) :
    occursB pat (c :: b) = occursB pat b := by
  obtain ⟨p', rfl⟩ := hbs
  rw [occursB_cons_eq, not_isPrefixOf_of_head_ne (Ne.symm hc), Bool.false_or]

theorem occursB_inputMarker_append {g f X : List Char} (hf : '\\' ∉ f) :
    occursB (inputMarker g) (inputMarker f ++ X) =
      ((inputMarker g).isPrefixOf (inputMarker f ++ X) || occursB (inputMarker g) X) := by
  rw [inputMarker_append_form f X, occursB_cons_eq, ← inputMarker_append_form f X]
  rw [occursB_append_nobs_abs (inputMarker_bs g)
    (show ('\\' : Char) ∉ ['i', 'n', 'p', 'u', 't', '\x7b'] by decide) (f ++ '\x7d' :: X)]
  rw [occursB_append_nobs_abs (inputMarker_bs g) hf ('\x7d' :: X)]
  rw [occursB_cons_not_bs (inputMarker_bs g) (by decide) X]

theorem occursB_includeMarker_append {g f X : List Char} (hf : '\\' ∉ f) :
    occursB (inputMarker g) (includeMarker f ++ X) =
      ((inputMarker g).isPrefixOf (includeMarker f ++ X) || occursB (inputMarker g) X) := by
  rw [includeMarker_append_form f X, occursB_cons_eq, ← includeMarker_append_form f X]
  rw [occursB_append_nobs_abs (inputMarker_bs g)
    (show ('\\' : Char) ∉ ['i', 'n', 'c', 'l', 'u', 'd', 'e', '\x7b'] by decide)
    (f ++ '\x7d' :: X)]
  rw [occursB_append_nobs_abs (inputMarker_bs g) hf ('\x7d' :: X)]
  rw [occursB_cons_not_bs (inputMarker_bs g) (by decide) X]

theorem occursB_nil_marker (g : List Char) : occursB (inputMarker g) [] = false := by
  rw [occursB_nil, inputMarker_eq]
  rfl

theorem isPrefixOf_eq_false_of_not {p s : List Char} (h : ¬ p.isPrefixOf s = true) :
    p.isPrefixOf s = false := by
  cases hx : p.isPrefixOf s with
  | true => exact absurd hx h
  | false => rfl

theorem step_inv {N : List (List Char)} {g rep : List Char}
    (hrep : '\\' ∉ rep) (wfAll : ∀ f ∈ N, wfName f) :
    ∀ (n : Nat) (s : List Char), s.length ≤ n → invariantB N s = true →
      invariantB N (replaceAll (inputMarker g) rep s) = true := by
  intro n
  induction n with
  | zero =>
    intro s hlen _
    have hs : s = [] := List.length_eq_zero.mp (Nat.le_zero.mp hlen)
    subst hs
    rfl
  | succ k ih =>
    intro s hlen hinv
    cases s with
    | nil => rfl
    | cons c cs =>
      by_cases hmatch : (inputMarker g).isPrefixOf (c :: cs) = true
      · obtain ⟨t, ht⟩ := isPrefixOf_iff_ex.mp hmatch
        rw [ht] at hinv ⊢
        rw [replaceAll_marker_head_match]
        have hlt : t.length ≤ k := by
          have hl := congrArg List.length ht
          simp only [List.length_cons, List.length_append, length_inputMarker] at hl
          simp only [List.length_cons] at hlen
          omega
        have hinvt : invariantB N t = true := by
          have h2 := invariantB_drop (inputMarker g).length hinv
          rwa [List.drop_left] at h2
        exact invariantB_append_nobs hrep (ih t hlt hinvt)
      · have hmf := isPrefixOf_eq_false_of_not hmatch
        by_cases hc : c = '\\'
        · subst hc
          obtain ⟨f, hfN, hor⟩ := headsMarkerB_elim (headsMarkerB_of_invariantB hinv)
          obtain ⟨hfbs, hfbr⟩ := wfAll f hfN
          cases hor with
          | inl hin =>
            obtain ⟨t, ht⟩ := isPrefixOf_iff_ex.mp hin
            rw [ht] at hinv hmf ⊢
            have hlt : t.length ≤ k := by
              have hl := congrArg List.length ht
              simp only [List.length_cons, List.length_append, length_inputMarker] at hl
              simp only [List.length_cons] at hlen
              omega
            have hinvt : invariantB N t = true := by
              have h2 := invariantB_drop (inputMarker f).length hinv
              rwa [List.drop_left] at h2
            rw [replaceAll_marker_head_input hfbs hmf]
            exact invariantB_inputMarker_append hfN hfbs (ih t hlt hinvt)
          | inr hin =>
            obtain ⟨t, ht⟩ := isPrefixOf_iff_ex.mp hin
            rw [ht] at hinv hmf ⊢
            have hlt : t.length ≤ k := by
              have hl := congrArg List.length ht
              simp only [List.length_cons, List.length_append, length_includeMarker] at hl
              simp only [List.length_cons] at hlen
              omega
            have hinvt : invariantB N t = true := by
              have h2 := invariantB_drop (includeMarker f).length hinv
              rwa [List.drop_left] at h2
            rw [replaceAll_marker_head_include hfbs hmf]
            exact invariantB_includeMarker_append hfN hfbs (ih t hlt hinvt)
        · rw [replaceAll_cons_not_bs (inputMarker_bs g) hc]
          exact invariantB_cons_not_bs hc
            (ih cs (by simp only [List.length_cons] at hlen; omega) (invariantB_tail hinv))

theorem step_noocc_self {N : List (List Char)} {g rep : List Char}
    (hgbr : '\x7d' ∉ g) (hrep : '\\' ∉ rep) (wfAll : ∀ f ∈ N, wfName f) :
    ∀ (n : Nat) (s : List Char), s.length ≤ n → invariantB N s = true →
      occursB (inputMarker g) (replaceAll (inputMarker g) rep s) = false := by
  intro n
  induction n with
  | zero =>
    intro s hlen _
    have hs : s = [] := List.length_eq_zero.mp (Nat.le_zero.mp hlen)
    subst hs
    exact occursB_nil_marker g
  | succ k ih =>
    intro s hlen hinv
    cases s with
    | nil => exact occursB_nil_marker g
    | cons c cs =>
      by_cases hmatch : (inputMarker g).isPrefixOf (c :: cs) = true
      · obtain ⟨t, ht⟩ := isPrefixOf_iff_ex.mp hmatch
        rw [ht] at hinv ⊢
        rw [replaceAll_marker_head_match]
        have hlt : t.length ≤ k := by
          have hl := congrArg List.length ht
          simp only [List.length_cons, List.length_append, length_inputMarker] at hl
          simp only [List.length_cons] at hlen
          omega
        have hinvt : invariantB N t = true := by
          have h2 := invariantB_drop (inputMarker g).length hinv
          rwa [List.drop_left] at h2
        rw [occursB_append_nobs_abs (inputMarker_bs g) hrep]
        exact ih t hlt hinvt
      · have hmf := isPrefixOf_eq_false_of_not hmatch
        by_cases hc : c = '\\'
        · subst hc
          obtain ⟨f, hfN, hor⟩ := headsMarkerB_elim (headsMarkerB_of_invariantB hinv)
          obtain ⟨hfbs, hfbr⟩ := wfAll f hfN
          cases hor with
          | inl hin =>
            obtain ⟨t, ht⟩ := isPrefixOf_iff_ex.mp hin
            rw [ht] at hinv hmf ⊢
            have hlt : t.length ≤ k := by
              have hl := congrArg List.length ht
              simp only [List.length_cons, List.length_append, length_inputMarker] at hl
              simp only [List.length_cons] at hlen
              omega
            have hinvt : invariantB N t = true := by
              have h2 := invariantB_drop (inputMarker f).length hinv
              rwa [List.drop_left] at h2
            rw [replaceAll_marker_head_input hfbs hmf]
            rw [occursB_inputMarker_append hfbs]
            have hpre : (inputMarker g).isPrefixOf
                (inputMarker f ++ replaceAll (inputMarker g) rep t) = false := by
              by_contra hx
              have hx' : (inputMarker g).isPrefixOf
                  (inputMarker f ++ replaceAll (inputMarker g) rep t) = true := by
                cases hy : (inputMarker g).isPrefixOf
                    (inputMarker f ++ replaceAll (inputMarker g) rep t) with
                | true => rfl
                | false => exact absurd hy hx
              have hgf : g = f := markers_eq hgbr hfbr hx' (isPrefixOf_self_append _ _)
              subst hgf
              rw [isPrefixOf_self_append] at hmf
              exact absurd hmf (by simp)
            rw [hpre, Bool.false_or]
            exact ih t hlt hinvt
          | inr hin =>
            obtain ⟨t, ht⟩ := isPrefixOf_iff_ex.mp hin
            rw [ht] at hinv hmf ⊢
            have hlt : t.length ≤ k := by
              have hl := congrArg List.length ht
              simp only [List.length_cons, List.length_append, length_includeMarker] at hl
              simp only [List.length_cons] at hlen
              omega
            have hinvt : invariantB N t = true := by
              have h2 := invariantB_drop (includeMarker f).length hinv
              rwa [List.drop_left] at h2
            rw [replaceAll_marker_head_include hfbs hmf]
            rw [occursB_includeMarker_append hfbs]
            have hpre : (inputMarker g).isPrefixOf
                (includeMarker f ++ replaceAll (inputMarker g) rep t) = false := by
              by_contra hx
              have hx' : (inputMarker g).isPrefixOf
                  (includeMarker f ++ replaceAll (inputMarker g) rep t) = true := by
                cases hy : (inputMarker g).isPrefixOf
                    (includeMarker f ++ replaceAll (inputMarker g) rep t) with
                | true => rfl
                | false => exact absurd hy hx
              exact input_include_clash hx' (isPrefixOf_self_append _ _)
            rw [hpre, Bool.false_or]
            exact ih t hlt hinvt
        · rw [replaceAll_cons_not_bs (inputMarker_bs g) hc]
          rw [occursB_cons_not_bs (inputMarker_bs g) hc]
          exact ih cs (by simp only [List.length_cons] at hlen; omega) (invariantB_tail hinv)

theorem occursB_eq_false_of_append {pat a b : List Char}
    (h : occursB pat (a ++ b) = false) : occursB pat b = false := by
  cases hx : occursB pat b with
  | false => rfl
  | true => rw [occursB_append_right a hx] at h; exact absurd h (by simp)

theorem step_preserve {N : List (List Char)} {g f₀ rep : List Char}
    (hf₀br : '\x7d' ∉ f₀) (hrep : '\\' ∉ rep) (wfAll : ∀ f ∈ N, wfName f) :
    ∀ (n : Nat) (s : List Char), s.length ≤ n → invariantB N s = true →
      occursB (inputMarker f₀) s = false →
      occursB (inputMarker f₀) (replaceAll (inputMarker g) rep s) = false := by
  intro n
  induction n with
  | zero =>
    intro s hlen _ _
    have hs : s = [] := List.length_eq_zero.mp (Nat.le_zero.mp hlen)
    subst hs
    exact occursB_nil_marker f₀
  | succ k ih =>
    intro s hlen hinv hnocc
    cases s with
    | nil => exact occursB_nil_marker f₀
    | cons c cs =>
      by_cases hmatch : (inputMarker g).isPrefixOf (c :: cs) = true
      · obtain ⟨t, ht⟩ := isPrefixOf_iff_ex.mp hmatch
        rw [ht] at hinv hnocc ⊢
        rw [replaceAll_marker_head_match]
        have hlt : t.length ≤ k := by
          have hl := congrArg List.length ht
          simp only [List.length_cons, List.length_append, length_inputMarker] at hl
          simp only [List.length_cons] at hlen
          omega
        have hinvt : invariantB N t = true := by
          have h2 := invariantB_drop (inputMarker g).length hinv
          rwa [List.drop_left] at h2
        rw [occursB_append_nobs_abs (inputMarker_bs f₀) hrep]
        exact ih t hlt hinvt (occursB_eq_false_of_append hnocc)
      · have hmf := isPrefixOf_eq_false_of_not hmatch
        by_cases hc : c = '\\'
        · subst hc
          obtain ⟨f, hfN, hor⟩ := headsMarkerB_elim (headsMarkerB_of_invariantB hinv)
          obtain ⟨hfbs, hfbr⟩ := wfAll f hfN
          cases hor with
          | inl hin =>
            obtain ⟨t, ht⟩ := isPrefixOf_iff_ex.mp hin
            rw [ht] at hinv hmf hnocc ⊢
            have hlt : t.length ≤ k := by
              have hl := congrArg List.length ht
              simp only [List.length_cons, List.length_append, length_inputMarker] at hl
              simp only [List.length_cons] at hlen
              omega
            have hinvt : invariantB N t = true := by
              have h2 := invariantB_drop (inputMarker f).length hinv
              rwa [List.drop_left] at h2
            rw [replaceAll_marker_head_input hfbs hmf]
            rw [occursB_inputMarker_append hfbs]
            have hpre : (inputMarker f₀).isPrefixOf
                (inputMarker f ++ replaceAll (inputMarker g) rep t) = false := by
              by_contra hx
              have hx' : (inputMarker f₀).isPrefixOf
                  (inputMarker f ++ replaceAll (inputMarker g) rep t) = true := by
                cases hy : (inputMarker f₀).isPrefixOf
                    (inputMarker f ++ replaceAll (inputMarker g) rep t) with
                | true => rfl
                | false => exact absurd hy hx
              have hf₀f : f₀ = f := markers_eq hf₀br hfbr hx' (isPrefixOf_self_append _ _)
              subst hf₀f
              rw [occursB_of_isPrefixOf (isPrefixOf_self_append _ _)] at hnocc
              exact absurd hnocc (by simp)
            rw [hpre, Bool.false_or]
            exact ih t hlt hinvt (occursB_eq_false_of_append hnocc)
          | inr hin =>
            obtain ⟨t, ht⟩ := isPrefixOf_iff_ex.mp hin
            rw [ht] at hinv hmf hnocc ⊢
            have hlt : t.length ≤ k := by
              have hl := congrArg List.length ht
              simp only [List.length_cons, List.length_append, length_includeMarker] at hl
              simp only [List.length_cons] at hlen
              omega
            have hinvt : invariantB N t = true := by
              have h2 := invariantB_drop (includeMarker f).length hinv
              rwa [List.drop_left] at h2
            rw [replaceAll_marker_head_include hfbs hmf]
            rw [occursB_includeMarker_append hfbs]
            have hpre : (inputMarker f₀).isPrefixOf
                (includeMarker f ++ replaceAll (inputMarker g) rep t) = false := by
              by_contra hx
              have hx' : (inputMarker f₀).isPrefixOf
                  (includeMarker f ++ replaceAll (inputMarker g) rep t) = true := by
                cases hy : (inputMarker f₀).isPrefixOf
                    (includeMarker f ++ replaceAll (inputMarker g) rep t) with
                | true => rfl
                | false => exact absurd hy hx
              exact input_include_clash hx' (isPrefixOf_self_append _ _)
            rw [hpre, Bool.false_or]
            exact ih t hlt hinvt (occursB_eq_false_of_append hnocc)
        · rw [replaceAll_cons_not_bs (inputMarker_bs g) hc]
          rw [occursB_cons_not_bs (inputMarker_bs f₀) hc]
          rw [occursB_cons_not_bs (inputMarker_bs f₀) hc] at hnocc
          exact ih cs (by simp only [List.length_cons] at hlen; omega)
            (invariantB_tail hinv) hnocc

theorem lookup_mem {α β : Type} [BEq α] [LawfulBEq α] {k : α} {v : β} :
    ∀ {l : List (α × β)}, List.lookup k l = some v → (k, v) ∈ l := by
  intro l
  induction l with
  | nil => intro h; simp [List.lookup] at h
  | cons kv rest ih =>
    intro h
    rw [List.lookup] at h
    cases hk : k == kv.1 with
    | true =>
      rw [hk] at h
      simp only [Option.some.injEq] at h
      have hkk : k = kv.1 := eq_of_beq hk
      subst h
      rw [hkk]
      exact List.mem_cons_self kv rest
    | false =>
      rw [hk] at h
      exact List.mem_cons_of_mem _ (ih h)

theorem includeValue_nobs {table : List (List Char × List Char)}
    (hv : ∀ kv ∈ table, '\\' ∉ kv.2) (f : List Char) : '\\' ∉ includeValue table f := by
  unfold includeValue
  cases hl : List.lookup (normIncludeName f) table with
  | none => simp
  | some v =>
    simp only [Option.getD_some]
    exact hv _ (lookup_mem hl)

theorem not_input_isPrefixOf_include (g f : List Char) (X : List Char) :
    (inputMarker g).isPrefixOf (includeMarker f ++ X) = false := by
  cases hx : (inputMarker g).isPrefixOf (includeMarker f ++ X) with
  | false => rfl
  | true => exact absurd (input_include_clash hx (isPrefixOf_self_append _ _)) (fun h => h)

theorem not_input_isPrefixOf_input_ne {g f : List Char} (hg : '\x7d' ∉ g) (hf : '\x7d' ∉ f)
    (hne : g ≠ f) (X : List Char) :
    (inputMarker g).isPrefixOf (inputMarker f ++ X) = false := by
  cases hx : (inputMarker g).isPrefixOf (inputMarker f ++ X) with
  | false => rfl
  | true => exact absurd (markers_eq hg hf hx (isPrefixOf_self_append _ _)) hne

theorem not_inputMarker_isPrefixOf_not_bs {g : List Char} {c : Char} (hc : c ≠ '\\')
    (x : List Char) : (inputMarker g).isPrefixOf (c :: x) = false := by
  rw [inputMarker_eq]
  exact not_isPrefixOf_of_head_ne (Ne.symm hc)

theorem simulSubstF_irrel (table : List (List Char × List Char)) (N : List (List Char)) :
    ∀ f₁ f₂ s, s.length ≤ f₁ → s.length ≤ f₂ →
      simulSubstF table N f₁ s = simulSubstF table N f₂ s := by
  intro f₁
  induction f₁ with
  | zero =>
    intro f₂ s h₁ _
    have hs : s = [] := List.length_eq_zero.mp (Nat.le_zero.mp h₁)
    subst hs
    cases f₂ <;> rfl
  | succ k ih =>
    intro f₂ s h₁ h₂
    cases s with
    | nil => cases f₂ <;> rfl
    | cons c cs =>
      cases f₂ with
      | zero => simp at h₂
      | succ m =>
        simp only [simulSubstF]
        cases hfind : N.find? (fun f => (inputMarker f).isPrefixOf (c :: cs)) with
        | none =>
          show c :: simulSubstF table N k cs = c :: simulSubstF table N m cs
          have hlen : cs.length ≤ k := by simp only [List.length_cons] at h₁; omega
          have hlen2 : cs.length ≤ m := by simp only [List.length_cons] at h₂; omega
          rw [ih m _ hlen hlen2]
        | some f =>
          show includeValue table f ++
              simulSubstF table N k ((c :: cs).drop (inputMarker f).length) =
            includeValue table f ++
              simulSubstF table N m ((c :: cs).drop (inputMarker f).length)
          have hmarker : 1 ≤ (inputMarker f).length := by
            rw [length_inputMarker]; omega
          have hlen : ((c :: cs).drop (inputMarker f).length).length ≤ k := by
            simp only [List.length_drop, List.length_cons]
            simp only [List.length_cons] at h₁
            omega
          have hlen2 : ((c :: cs).drop (inputMarker f).length).length ≤ m := by
            simp only [List.length_drop, List.length_cons]
            simp only [List.length_cons] at h₂
            omega
          rw [ih m _ hlen hlen2]

theorem simulSubst_nil (table : List (List Char × List Char)) (N : List (List Char)) :
    simulSubst table N [] = [] := rfl

theorem simulSubst_cons_none {table : List (List Char × List Char)} {N : List (List Char)}
    {c : Char} {cs : List Char}
    (hfind : N.find? (fun f => (inputMarker f).isPrefixOf (c :: cs)) = none) :
    simulSubst table N (c :: cs) = c :: simulSubst table N cs := by
  show simulSubstF table N (cs.length + 1) (c :: cs) = _
  simp only [simulSubstF, hfind]
  rfl

theorem simulSubst_cons_some {table : List (List Char × List Char)} {N : List (List Char)}
    {c : Char} {cs : List Char} {f : List Char}
    (hfind : N.find? (fun f => (inputMarker f).isPrefixOf (c :: cs)) = some f) :
    simulSubst table N (c :: cs) =
      includeValue table f ++ simulSubst table N ((c :: cs).drop (inputMarker f).length) := by
  show simulSubstF table N (cs.length + 1) (c :: cs) = _
  simp only [simulSubstF, hfind]
  have hmarker : 1 ≤ (inputMarker f).length := by rw [length_inputMarker]; omega
  have := simulSubstF_irrel table N cs.length ((c :: cs).drop (inputMarker f).length).length
    ((c :: cs).drop (inputMarker f).length)
    (by simp only [List.length_drop, List.length_cons]; omega)
    (Nat.le_refl _)
  rw [this]
  rfl

theorem simulSubst_cons_not_bs {table : List (List Char × List Char)} {N : List (List Char)}
    {c : Char} (hc : c ≠ '\\') (cs : List Char) :
    simulSubst table N (c :: cs) = c :: simulSubst table N cs := by
  apply simulSubst_cons_none
  apply List.find?_eq_none.mpr
  intro f _
  simp [not_inputMarker_isPrefixOf_not_bs hc]

theorem simulSubst_append_nobs {table : List (List Char × List Char)} {N : List (List Char)}
    {u : List Char} (hu : '\\' ∉ u) (t : List Char) :
    simulSubst table N (u ++ t) = u ++ simulSubst table N t := by
  induction u with
  | nil => rfl
  | cons c cs ih =>
    have hc : c ≠ '\\' := fun hcc => hu (hcc ▸ List.mem_cons_self c cs)
    have hcs : '\\' ∉ cs := fun hm => hu (List.mem_cons_of_mem c hm)
    rw [List.cons_append, simulSubst_cons_not_bs hc, ih hcs, List.cons_append]

theorem simulSubst_include_head {table : List (List Char × List Char)} {N : List (List Char)}
    {f : List Char} (hf : '\\' ∉ f) (t : List Char) :
    simulSubst table N (includeMarker f ++ t) =
      includeMarker f ++ simulSubst table N t := by
  rw [includeMarker_append_form f t]
  rw [simulSubst_cons_none (by
    apply List.find?_eq_none.mpr
    intro g _
    rw [← includeMarker_append_form f t]
    simp [not_input_isPrefixOf_include g f t])]
  rw [simulSubst_append_nobs (show ('\\' : Char) ∉ ['i', 'n', 'c', 'l', 'u', 'd', 'e', '\x7b']
    by decide) (f ++ '\x7d' :: t)]
  rw [simulSubst_append_nobs hf ('\x7d' :: t)]
  rw [simulSubst_cons_not_bs (by decide) t]
  rw [includeMarker_append_form f (simulSubst table N t)]

theorem simulSubst_input_head {table : List (List Char × List Char)} {N : List (List Char)}
    {f : List Char} (wfAll : ∀ g ∈ N, wfName g) (hfN : f ∈ N) (hfbr : '\x7d' ∉ f)
    (t : List Char) :
    simulSubst table N (inputMarker f ++ t) =
      includeValue table f ++ simulSubst table N t := by
  rw [inputMarker_append_form f t]
  cases hfind : N.find? (fun g => (inputMarker g).isPrefixOf
      ('\\' :: (('i' :: 'n' :: 'p' :: 'u' :: 't' :: '\x7b' :: []) ++ (f ++ '\x7d' :: t)))) with
  | none =>
    exfalso
    have hnone := List.find?_eq_none.mp hfind f hfN
    apply hnone
    rw [← inputMarker_append_form f t]
    exact isPrefixOf_self_append _ _
  | some f₁ =>
    rw [simulSubst_cons_some hfind]
    have hp₁ : (inputMarker f₁).isPrefixOf ('\\' :: (('i' :: 'n' :: 'p' :: 'u' :: 't' ::
        '\x7b' :: []) ++ (f ++ '\x7d' :: t))) = true := by
      have := List.find?_some hfind
      simpa using this
    have hf₁N : f₁ ∈ N := List.mem_of_find?_eq_some hfind
    have hf₁f : f₁ = f := by
      apply markers_eq (wfAll f₁ hf₁N).2 hfbr hp₁
      rw [← inputMarker_append_form f t]
      exact isPrefixOf_self_append _ _
    rw [hf₁f]
    rw [← inputMarker_append_form f t, List.drop_left]

theorem or_eq_false_split {a b : Bool} (h : (a || b) = false) : a = false ∧ b = false := by
  cases a <;> cases b <;> simp_all

/-- The fold the include flattener performs over the discovered names. -/
def flattenFold (table : List (List Char × List Char)) (L : List (List Char))
    (s : List Char) : List Char :=
  L.foldl (fun s f => replaceAll (inputMarker f) (includeValue table f) s) s

theorem flattenIncludes_eq_fold (src : List Char) (table : List (List Char × List Char)) :
    flattenIncludes src table = flattenFold table (discoveredNames src) src := rfl

theorem flattenFold_nil_list (table : List (List Char × List Char)) (s : List Char) :
    flattenFold table [] s = s := rfl

theorem flattenFold_cons_list (table : List (List Char × List Char)) (g : List Char)
    (L : List (List Char)) (s : List Char) :
    flattenFold table (g :: L) s =
      flattenFold table L (replaceAll (inputMarker g) (includeValue table g) s) := rfl

theorem flattenFold_nil_str (table : List (List Char × List Char)) :
    ∀ L : List (List Char), flattenFold table L [] = [] := by
  intro L
  induction L with
  | nil => rfl
  | cons g L' ih =>
    rw [flattenFold_cons_list]
    exact ih

theorem flattenFold_cons_not_bs {table : List (List Char × List Char)} {c : Char}
    (hc : c ≠ '\\') : ∀ (L : List (List Char)) (s : List Char),
    flattenFold table L (c :: s) = c :: flattenFold table L s := by
  intro L
  induction L with
  | nil => intro s; rfl
  | cons g L' ih =>
    intro s
    rw [flattenFold_cons_list, replaceAll_cons_not_bs (inputMarker_bs g) hc, ih,
      flattenFold_cons_list]

theorem flattenFold_append_nobs {table : List (List Char × List Char)} {u : List Char}
    (hu : '\\' ∉ u) : ∀ (L : List (List Char)) (t : List Char),
    flattenFold table L (u ++ t) = u ++ flattenFold table L t := by
  intro L
  induction L with
  | nil => intro t; rfl
  | cons g L' ih =>
    intro t
    rw [flattenFold_cons_list, replaceAll_append_nobs (inputMarker_bs g) hu, ih,
      flattenFold_cons_list]

theorem flattenFold_include_head {table : List (List Char × List Char)} {f : List Char}
    (hf : '\\' ∉ f) : ∀ (L : List (List Char)) (t : List Char),
    flattenFold table L (includeMarker f ++ t) =
      includeMarker f ++ flattenFold table L t := by
  intro L
  induction L with
  | nil => intro t; rfl
  | cons g L' ih =>
    intro t
    rw [flattenFold_cons_list,
      replaceAll_marker_head_include hf (not_input_isPrefixOf_include g f t), ih,
      flattenFold_cons_list]

theorem flattenFold_input_head {table : List (List Char × List Char)} {f : List Char}
    (hf : wfName f) (hv : ∀ kv ∈ table, '\\' ∉ kv.2) :
    ∀ (L : List (List Char)), (∀ g ∈ L, wfName g) → f ∈ L →
      ∀ t, flattenFold table L (inputMarker f ++ t) =
        includeValue table f ++ flattenFold table L t := by
  intro L
  induction L with
  | nil => intro _ hfL; exact absurd hfL (List.not_mem_nil f)
  | cons g L' ih =>
    intro wfL hfL t
    by_cases hgf : g = f
    · subst hgf
      rw [flattenFold_cons_list, replaceAll_marker_head_match,
        flattenFold_append_nobs (includeValue_nobs hv g), flattenFold_cons_list]
    · have hfL' : f ∈ L' := by
        rcases List.mem_cons.mp hfL with h | h
        · exact absurd h.symm hgf
        · exact h
      have hwg : wfName g := wfL g (List.mem_cons_self g L')
      rw [flattenFold_cons_list,
        replaceAll_marker_head_input hf.1 (not_input_isPrefixOf_input_ne hwg.2 hf.2 hgf t),
        ih (fun x hx => wfL x (List.mem_cons_of_mem g hx)) hfL'
          (replaceAll (inputMarker g) (includeValue table g) t),
        flattenFold_cons_list]

theorem flattenFold_inv {N : List (List Char)} {table : List (List Char × List Char)}
    (wfAll : ∀ f ∈ N, wfName f) (hv : ∀ kv ∈ table, '\\' ∉ kv.2) :
    ∀ (L : List (List Char)) (s : List Char), invariantB N s = true →
      invariantB N (flattenFold table L s) = true := by
  intro L
  induction L with
  | nil => intro s hs; exact hs
  | cons g L' ih =>
    intro s hs
    rw [flattenFold_cons_list]
    exact ih _ (step_inv (includeValue_nobs hv g) wfAll s.length s (Nat.le_refl _) hs)

theorem flattenFold_preserve {N : List (List Char)} {table : List (List Char × List Char)}
    {f₀ : List Char} (hf₀br : '\x7d' ∉ f₀)
    (wfAll : ∀ f ∈ N, wfName f) (hv : ∀ kv ∈ table, '\\' ∉ kv.2) :
    ∀ (L : List (List Char)) (s : List Char), invariantB N s = true →
      occursB (inputMarker f₀) s = false →
      occursB (inputMarker f₀) (flattenFold table L s) = false := by
  intro L
  induction L with
  | nil => intro s _ hno; exact hno
  | cons g L' ih =>
    intro s hs hno
    rw [flattenFold_cons_list]
    exact ih _ (step_inv (includeValue_nobs hv g) wfAll s.length s (Nat.le_refl _) hs)
      (step_preserve hf₀br (includeValue_nobs hv g) wfAll s.length s (Nat.le_refl _) hs hno)

theorem flattenFold_noocc {N : List (List Char)} {table : List (List Char × List Char)}
    (wfAll : ∀ f ∈ N, wfName f) (hv : ∀ kv ∈ table, '\\' ∉ kv.2) :
    ∀ (L : List (List Char)), (∀ g ∈ L, wfName g) →
      ∀ (s : List Char), invariantB N s = true →
      ∀ f₀ ∈ L, occursB (inputMarker f₀) (flattenFold table L s) = false := by
  intro L
  induction L with
  | nil => intro _ s _ f₀ hf₀; exact absurd hf₀ (List.not_mem_nil f₀)
  | cons g L' ih =>
    intro wfL s hs f₀ hf₀
    have hwfL' : ∀ x ∈ L', wfName x := fun x hx => wfL x (List.mem_cons_of_mem g hx)
    have hs' : invariantB N (replaceAll (inputMarker g) (includeValue table g) s) = true :=
      step_inv (includeValue_nobs hv g) wfAll s.length s (Nat.le_refl _) hs
    rw [flattenFold_cons_list]
    by_cases hf₀L' : f₀ ∈ L'
    · exact ih hwfL' _ hs' f₀ hf₀L'
    · have hf₀g : f₀ = g := by
        rcases List.mem_cons.mp hf₀ with h | h
        · exact h
        · exact absurd h hf₀L'
      subst hf₀g
      have hwf₀ : wfName f₀ := wfL f₀ (List.mem_cons_self f₀ L')
      exact flattenFold_preserve hwf₀.2 wfAll hv L' _ hs'
        (step_noocc_self hwf₀.2 (includeValue_nobs hv f₀) wfAll s.length s (Nat.le_refl _) hs)

theorem noocc_of_inv {N : List (List Char)} (wfAll : ∀ f ∈ N, wfName f) :
    ∀ s : List Char, invariantB N s = true →
      (∀ f ∈ N, occursB (inputMarker f) s = false) →
      ∀ g, wfName g → occursB (inputMarker g) s = false := by
  intro s
  induction s with
  | nil => intro _ _ g _; exact occursB_nil_marker g
  | cons c cs ih =>
    intro hinv hall g hg
    rw [occursB_cons_eq]
    have htail : occursB (inputMarker g) cs = false := by
      apply ih (invariantB_tail hinv) ?_ g hg
      intro f hf
      have := hall f hf
      rw [occursB_cons_eq] at this
      exact (or_eq_false_split this).2
    have hhead : (inputMarker g).isPrefixOf (c :: cs) = false := by
      by_cases hc : c = '\\'
      · subst hc
        obtain ⟨f, hfN, hor⟩ := headsMarkerB_elim (headsMarkerB_of_invariantB hinv)
        cases hx : (inputMarker g).isPrefixOf ('\\' :: cs) with
        | false => rfl
        | true =>
          exfalso
          cases hor with
          | inl hin =>
            have hgf : g = f := markers_eq hg.2 (wfAll f hfN).2 hx hin
            have hocc : occursB (inputMarker f) ('\\' :: cs) = true :=
              occursB_of_isPrefixOf hin
            rw [hall f hfN] at hocc
            exact absurd hocc (by simp)
          | inr hin => exact input_include_clash hx hin
      · exact not_inputMarker_isPrefixOf_not_bs hc cs
    rw [hhead, htail]
    rfl

theorem flattenFold_eq_simul {N : List (List Char)} {table : List (List Char × List Char)}
    (wfAll : ∀ f ∈ N, wfName f) (hv : ∀ kv ∈ table, '\\' ∉ kv.2) :
    ∀ (n : Nat) (s : List Char), s.length ≤ n → invariantB N s = true →
      flattenFold table N s = simulSubst table N s := by
  intro n
  induction n with
  | zero =>
    intro s hlen _
    have hs : s = [] := List.length_eq_zero.mp (Nat.le_zero.mp hlen)
    subst hs
    rw [flattenFold_nil_str, simulSubst_nil]
  | succ k ih =>
    intro s hlen hinv
    cases s with
    | nil => rw [flattenFold_nil_str, simulSubst_nil]
    | cons c cs =>
      by_cases hc : c = '\\'
      · subst hc
        obtain ⟨f, hfN, hor⟩ := headsMarkerB_elim (headsMarkerB_of_invariantB hinv)
        have hwf : wfName f := wfAll f hfN
        cases hor with
        | inl hin =>
          obtain ⟨t, ht⟩ := isPrefixOf_iff_ex.mp hin
          rw [ht] at hinv ⊢
          have hlt : t.length ≤ k := by
            have hl := congrArg List.length ht
            simp only [List.length_cons, List.length_append, length_inputMarker] at hl
            simp only [List.length_cons] at hlen
            omega
          have hinvt : invariantB N t = true := by
            have h2 := invariantB_drop (inputMarker f).length hinv
            rwa [List.drop_left] at h2
          rw [flattenFold_input_head hwf hv N wfAll hfN t,
            simulSubst_input_head wfAll hfN hwf.2 t, ih t hlt hinvt]
        | inr hin =>
          obtain ⟨t, ht⟩ := isPrefixOf_iff_ex.mp hin
          rw [ht] at hinv ⊢
          have hlt : t.length ≤ k := by
            have hl := congrArg List.length ht
            simp only [List.length_cons, List.length_append, length_includeMarker] at hl
            simp only [List.length_cons] at hlen
            omega
          have hinvt : invariantB N t = true := by
            have h2 := invariantB_drop (includeMarker f).length hinv
            rwa [List.drop_left] at h2
          rw [flattenFold_include_head hwf.1 N t, simulSubst_include_head hwf.1 t,
            ih t hlt hinvt]
      · rw [flattenFold_cons_not_bs hc, simulSubst_cons_not_bs hc,
          ih cs (by simp only [List.length_cons] at hlen; omega) (invariantB_tail hinv)]

theorem mem_dictInsert_elim {α β : Type} [BEq α] {k : α} {v : β} {kv : α × β} :
    ∀ {m : List (α × β)}, kv ∈ dictInsert k v m → kv = (k, v) ∨ kv ∈ m := by
  intro m
  induction m with
  | nil =>
    intro h
    simp only [dictInsert] at h
    exact Or.inl (List.mem_singleton.mp h)
  | cons kv' rest ih =>
    intro h
    rw [dictInsert] at h
    by_cases hk : (kv'.1 == k) = true
    · rw [if_pos hk] at h
      rcases List.mem_cons.mp h with h | h
      · exact Or.inl h
      · exact Or.inr (List.mem_cons_of_mem _ h)
    · rw [if_neg hk] at h
      rcases List.mem_cons.mp h with h | h
      · rw [h]
        exact Or.inr (List.mem_cons_self kv' rest)
      · rcases ih h with h | h
        · exact Or.inl h
        · exact Or.inr (List.mem_cons_of_mem _ h)

theorem mem_dictInsert_of_ne {α β : Type} [BEq α] [LawfulBEq α] {k : α} {v : β} {kv : α × β}
    (hne : kv.1 ≠ k) : ∀ {m : List (α × β)}, kv ∈ m → kv ∈ dictInsert k v m := by
  intro m
  induction m with
  | nil => intro h; exact absurd h (List.not_mem_nil kv)
  | cons kv' rest ih =>
    intro h
    rw [dictInsert]
    by_cases hk : (kv'.1 == k) = true
    · rw [if_pos hk]
      rcases List.mem_cons.mp h with h | h
      · exact absurd (h ▸ eq_of_beq hk) hne
      · exact List.mem_cons_of_mem _ h
    · rw [if_neg hk]
      rcases List.mem_cons.mp h with h | h
      · rw [h]
        exact List.mem_cons_self kv' (dictInsert k v rest)
      · exact List.mem_cons_of_mem _ (ih h)

theorem lookup_dictInsert_self {α β : Type} [BEq α] [LawfulBEq α] (k : α) (v : β) :
    ∀ (m : List (α × β)), List.lookup k (dictInsert k v m) = some v := by
  intro m
  induction m with
  | nil => simp [dictInsert, List.lookup]
  | cons kv' rest ih =>
    rw [dictInsert]
    by_cases hk : (kv'.1 == k) = true
    · rw [if_pos hk, List.lookup, beq_self_eq_true]
    · rw [if_neg hk, List.lookup]
      have : (k == kv'.1) = false := by
        cases hx : k == kv'.1 with
        | false => rfl
        | true => exact absurd (by rw [eq_of_beq hx]; exact beq_self_eq_true _) hk
      rw [this]
      exact ih

theorem lookup_dictInsert_ne {α β : Type} [BEq α] [LawfulBEq α] {k x : α} (v : β)
    (hne : k ≠ x) :
    ∀ (m : List (α × β)), List.lookup k (dictInsert x v m) = List.lookup k m := by
  intro m
  induction m with
  | nil =>
    simp only [dictInsert, List.lookup]
    have : (k == x) = false := beq_eq_false_iff_ne.mpr hne
    rw [this]
  | cons kv' rest ih =>
    rw [dictInsert]
    by_cases hk : (kv'.1 == x) = true
    · rw [if_pos hk, List.lookup, List.lookup]
      have h1 : (k == x) = false := beq_eq_false_iff_ne.mpr hne
      have h2 : (k == kv'.1) = false := by rw [eq_of_beq hk]; exact h1
      rw [h1, h2]
    · rw [if_neg hk, List.lookup, List.lookup]
      cases hkk : k == kv'.1 with
      | true => rfl
      | false => exact ih

theorem foldl_dictInsert_lookup_skip {α β : Type} [BEq α] [LawfulBEq α] {k : α}
    (g : α → β) : ∀ (ts : List α) (m : List (α × β)), k ∉ ts →
      List.lookup k (ts.foldl (fun m t => dictInsert t (g t) m) m) = List.lookup k m := by
  intro ts
  induction ts with
  | nil => intro m _; rfl
  | cons t ts' ih =>
    intro m hk
    have hkt : k ≠ t := fun h => hk (h ▸ List.mem_cons_self t ts')
    have hkts' : k ∉ ts' := fun h => hk (List.mem_cons_of_mem t h)
    rw [List.foldl_cons, ih _ hkts', lookup_dictInsert_ne _ hkt]

theorem foldl_dictInsert_lookup {α β : Type} [BEq α] [LawfulBEq α] {k : α} (g : α → β) :
    ∀ (ts : List α) (m : List (α × β)), k ∈ ts →
      List.lookup k (ts.foldl (fun m t => dictInsert t (g t) m) m) = some (g k) := by
  intro ts
  induction ts with
  | nil => intro m hk; exact absurd hk (List.not_mem_nil k)
  | cons t ts' ih =>
    intro m hk
    by_cases hk' : k ∈ ts'
    · rw [List.foldl_cons, ih _ hk']
    · have hkt : k = t := by
        rcases List.mem_cons.mp hk with h | h
        · exact h
        · exact absurd h hk'
      subst hkt
      rw [List.foldl_cons, foldl_dictInsert_lookup_skip g ts' _ hk',
        lookup_dictInsert_self]

theorem foldl_dictInsert_keys {α β : Type} [BEq α] {kv : α × β} (g : α → β) :
    ∀ (ts : List α) (m : List (α × β)),
      kv ∈ ts.foldl (fun m t => dictInsert t (g t) m) m → kv.1 ∈ ts ∨ kv ∈ m := by
  intro ts
  induction ts with
  | nil => intro m h; exact Or.inr h
  | cons t ts' ih =>
    intro m h
    rw [List.foldl_cons] at h
    rcases ih _ h with h | h
    · exact Or.inl (List.mem_cons_of_mem t h)
    · rcases mem_dictInsert_elim h with h | h
      · exact Or.inl (by rw [h]; exact List.mem_cons_self t ts')
      · exact Or.inr h

theorem dropWhile_length_le {α : Type} (p : α → Bool) :
    ∀ l : List α, (l.dropWhile p).length ≤ l.length := by
  intro l
  induction l with
  | nil => simp [List.dropWhile]
  | cons c cs ih =>
    rw [List.dropWhile]
    cases p c with
    | true => exact Nat.le_trans ih (by simp)
    | false => simp

theorem dropWhile_append_all {α : Type} {p : α → Bool} {a : List α}
    (ha : ∀ x ∈ a, p x = true) (b : List α) :
    (a ++ b).dropWhile p = b.dropWhile p := by
  induction a with
  | nil => rfl
  | cons c cs ih =>
    rw [List.cons_append, List.dropWhile, ha c (List.mem_cons_self c cs)]
    exact ih (fun x hx => ha x (List.mem_cons_of_mem c hx))

theorem stripLineCommentsF_irrel :
    ∀ f₁ f₂ s, s.length ≤ f₁ → s.length ≤ f₂ →
      stripLineCommentsF f₁ s = stripLineCommentsF f₂ s := by
  intro f₁
  induction f₁ with
  | zero =>
    intro f₂ s h₁ _
    have hs : s = [] := List.length_eq_zero.mp (Nat.le_zero.mp h₁)
    subst hs
    cases f₂ <;> rfl
  | succ k ih =>
    intro f₂ s h₁ h₂
    cases s with
    | nil => cases f₂ <;> rfl
    | cons c cs =>
      cases f₂ with
      | zero => simp at h₂
      | succ m =>
        simp only [stripLineCommentsF]
        by_cases hc : c = '%'
        · rw [if_pos hc, if_pos hc]
          cases hdrop : cs.dropWhile (fun x => x != '\n') with
          | nil =>
            show c :: stripLineCommentsF k cs = c :: stripLineCommentsF m cs
            have hlen : cs.length ≤ k := by simp only [List.length_cons] at h₁; omega
            have hlen2 : cs.length ≤ m := by simp only [List.length_cons] at h₂; omega
            rw [ih m _ hlen hlen2]
          | cons x rest =>
            show '\n' :: stripLineCommentsF k rest = '\n' :: stripLineCommentsF m rest
            have hr : rest.length + 1 ≤ cs.length := by
              have := dropWhile_length_le (fun x => x != '\n') cs
              rw [hdrop] at this
              simpa using this
            have hlen : rest.length ≤ k := by simp only [List.length_cons] at h₁; omega
            have hlen2 : rest.length ≤ m := by simp only [List.length_cons] at h₂; omega
            rw [ih m _ hlen hlen2]
        · rw [if_neg hc, if_neg hc]
          have hlen : cs.length ≤ k := by simp only [List.length_cons] at h₁; omega
          have hlen2 : cs.length ≤ m := by simp only [List.length_cons] at h₂; omega
          rw [ih m _ hlen hlen2]

theorem stripLineComments_cons_ne {c : Char} (hc : c ≠ '%') (cs : List Char) :
    stripLineComments (c :: cs) = c :: stripLineComments cs := by
  show stripLineCommentsF (cs.length + 1) (c :: cs) = _
  simp only [stripLineCommentsF]
  rw [if_neg hc]
  rfl

theorem stripLineComments_pct {mid : List Char} (hmid : '\n' ∉ mid) (rest : List Char) :
    stripLineComments ('%' :: (mid ++ '\n' :: rest)) = '\n' :: stripLineComments rest := by
  show stripLineCommentsF ((mid ++ '\n' :: rest).length + 1) ('%' :: (mid ++ '\n' :: rest)) = _
  simp only [stripLineCommentsF, if_true]
  have hdrop : (mid ++ '\n' :: rest).dropWhile (fun x => x != '\n') = '\n' :: rest := by
    rw [dropWhile_append_all (fun x hx => by
      have : x ≠ '\n' := fun hxx => hmid (hxx ▸ hx)
      simpa using this)]
    rw [List.dropWhile]
    simp
  rw [hdrop]
  show '\n' :: stripLineCommentsF (mid ++ '\n' :: rest).length rest = _
  have h1 : rest.length ≤ (mid ++ '\n' :: rest).length := by
    simp only [List.length_append, List.length_cons]
    omega
  rw [stripLineCommentsF_irrel _ rest.length rest h1 (Nat.le_refl _)]
  rfl

theorem decodeUtf8Ignore_ascii_cons {b : Nat} (hb : b < 0x80) (r : List Nat) :
    decodeUtf8Ignore (b :: r) = Char.ofNat b :: decodeUtf8Ignore r := by
  show decodeUtf8IgnoreF (r.length + 1) (b :: r) = _
  simp only [decodeUtf8IgnoreF]
  rw [if_pos hb]
  rfl

theorem decodeUtf8Ignore_invalid_cons {b : Nat} (hb : 0xF5 ≤ b) (r : List Nat) :
    decodeUtf8Ignore (b :: r) = decodeUtf8Ignore r := by
  show decodeUtf8IgnoreF (r.length + 1) (b :: r) = _
  simp only [decodeUtf8IgnoreF]
  rw [if_neg (by omega), if_neg (by omega), if_neg (by omega), if_neg (by omega),
    if_neg (by omega)]
  rfl

theorem decodeUtf8Ignore_ascii_list :
    ∀ {l : List Nat}, (∀ b ∈ l, b < 0x80) → decodeUtf8Ignore l = l.map Char.ofNat := by
  intro l
  induction l with
  | nil => intro _; rfl
  | cons b r ih =>
    intro h
    rw [decodeUtf8Ignore_ascii_cons (h b (List.mem_cons_self b r)), List.map_cons,
      ih (fun x hx => h x (List.mem_cons_of_mem b hx))]

theorem lookup_of_mem_nodup {α β : Type} [BEq α] [LawfulBEq α] {k : α} {v : β} :
    ∀ {l : List (α × β)}, (l.map Prod.fst).Nodup → (k, v) ∈ l → List.lookup k l = some v := by
  intro l
  induction l with
  | nil => intro _ h; exact absurd h (List.not_mem_nil _)
  | cons kv rest ih =>
    intro hnd hm
    rw [List.map_cons, List.nodup_cons] at hnd
    rw [List.lookup]
    rcases List.mem_cons.mp hm with h | h
    · rw [← h]
      simp only [beq_self_eq_true]
    · have hk : k ≠ kv.1 := by
        intro hkk
        apply hnd.1
        rw [← hkk]
        exact List.mem_map_of_mem Prod.fst h
      have : (k == kv.1) = false := beq_eq_false_iff_ne.mpr hk
      rw [this]
      exact ih hnd.2 h

theorem replaceAll_self {pat rep : List Char} (hpat : pat ≠ []) :
    replaceAll pat rep pat = rep := by
  cases pat with
  | nil => exact absurd rfl hpat
  | cons a p' =>
    rw [replaceAll_cons _ _ (by simp) a p']
    rw [if_pos (isPrefixOf_iff_ex.mpr ⟨[], (List.append_nil _).symm⟩)]
    rw [List.drop_length]
    rw [replaceAll_nil, List.append_nil]

theorem replaceAll_del_trailing {pat : List Char} (hpat : pat ≠ []) :
    ∀ stem : List Char,
      (∀ i < stem.length, ¬ pat.isPrefixOf ((stem ++ pat).drop i) = true) →
      replaceAll pat [] (stem ++ pat) = stem := by
  intro stem
  induction stem with
  | nil =>
    intro _
    rw [List.nil_append, replaceAll_self hpat]
  | cons c stem' ih =>
    intro hocc
    rw [List.cons_append, replaceAll_cons _ _ hpat c (stem' ++ pat)]
    rw [if_neg (by
      have := hocc 0 (by simp)
      simpa using this)]
    rw [ih (fun i hi => by
      have := hocc (i + 1) (by simpa using Nat.succ_lt_succ hi)
      simpa using this)]

theorem extractSectionCmd_skip {heading : List Char} :
    ∀ (u z : List Char),
      (∀ k < u.length, ¬ heading.isPrefixOf ((u ++ z).drop k) = true) →
      extractSectionCmd heading (u ++ z) = extractSectionCmd heading z := by
  intro u
  induction u with
  | nil => intro z _; rfl
  | cons c u' ih =>
    intro z h
    rw [List.cons_append]
    simp only [extractSectionCmd]
    rw [if_neg (by
      have := h 0 (by simp)
      simpa using this)]
    exact ih z (fun k hk => by
      have := h (k + 1) (by simpa using Nat.succ_lt_succ hk)
      simpa using this)

theorem extractSectionCmd_head {heading : List Char} (hne : heading ≠ []) (w : List Char) :
    extractSectionCmd heading (heading ++ w) = heading ++ sectionSpan w := by
  cases hform : heading ++ w with
  | nil => exact absurd (List.append_eq_nil.mp hform).1 hne
  | cons c cs =>
    simp only [extractSectionCmd]
    rw [if_pos (by rw [← hform]; exact isPrefixOf_self_append _ _)]
    rw [← hform, List.drop_left]

theorem sectionSpan_boundary (rest : List Char) :
    sectionSpan (("\\section".data) ++ rest) = "\\section".data := by
  have hform : ("\\section".data) ++ rest = '\\' :: ("section".data ++ rest) := rfl
  rw [hform]
  simp only [sectionSpan]
  have hb : boundaryHead ('\\' :: ("section".data ++ rest)) = some ("\\section".data) := by
    rw [← hform]
    unfold boundaryHead
    rw [if_pos (isPrefixOf_self_append _ _)]
  rw [hb]

theorem sectionSpan_emit {c : Char} {cs : List Char} (hb : boundaryHead (c :: cs) = none)
    (hcs : cs ≠ []) : sectionSpan (c :: cs) = c :: sectionSpan cs := by
  simp only [sectionSpan]
  rw [hb]
  have hemp : cs.isEmpty = false := by
    cases cs with
    | nil => exact absurd rfl hcs
    | cons _ _ => rfl
  rw [hemp, Bool.and_false]
  rfl

theorem sectionSpan_through_mid :
    ∀ (mid rest : List Char),
      (∀ k < mid.length, boundaryHead ((mid ++ (("\\section".data) ++ rest)).drop k) = none) →
      sectionSpan (mid ++ (("\\section".data) ++ rest)) = mid ++ ("\\section".data) := by
  intro mid
  induction mid with
  | nil => intro rest _; rw [List.nil_append]; exact sectionSpan_boundary rest
  | cons c mid' ih =>
    intro rest h
    rw [List.cons_append]
    rw [sectionSpan_emit (by
      have := h 0 (by simp)
      simpa using this) (by simp)]
    rw [ih rest (fun k hk => by
      have := h (k + 1) (by simpa using Nat.succ_lt_succ hk)
      simpa using this)]
    rw [List.cons_append]

/-- ASCII text as a byte list, used to build concrete archives. -/
def asciiBytes (s : String) : List Nat := s.data.map Char.toNat

/-- An archive with two `.tex` members, no `.bbl` member and no
`\begin{document}` marker: the root stays unresolved. -/
def archiveC1 : List (List Char × List Nat) :=
  [(("a.tex".data), asciiBytes "hello"), (("b.tex".data), asciiBytes "world")]

/-- C1: the claim says that when `.tex` files exist but no root document
is resolved, the `"all"` entry is null and the fallback of concatenating
all file contents completes without raising.  On `archiveC1` the first
two parts hold, but the fallback `"\n".join(self.tex.values())`
(paper.py line 155) iterates over a value set that contains the `"all"`
entry's `None` and raises `TypeError`, modelled by
`tldrContentResult archiveC1 = none`: the fallback never completes. -/
theorem claim_C1 :
    (texOfArchive archiveC1).isSome = true ∧
    List.lookup ("all".data) ((texOfArchive archiveC1).getD []) = some none ∧
    tldrContentResult archiveC1 = none := by
  refine ⟨by decide, by decide, by decide⟩

/-- An archive whose single `.bbl` member is named `a.bbl.bbl`, so that
its stem `a.bbl` matches the stem of the `.tex` member `a.bbl.tex`. -/
def archiveC3 : List (List Char × List Nat) :=
  [(("a.bbl.tex".data), asciiBytes "x"), (("a.bbl.bbl".data), asciiBytes "y")]

/-- C3 counterexample: `archiveC3` has exactly one `.bbl` member whose
stem (`a.bbl`) equals the stem of the `.tex` member `a.bbl.tex`, yet the
resolver does not select that `.tex` file: deleting every `.bbl`
occurrence yields candidate `a.tex`, which is absent, and the content
scan finds no document marker, so resolution yields no root at all. -/
theorem claim_C3_counterexample :
    bblNames archiveC3 = [("a.bbl.bbl".data)] ∧
    texFileNames archiveC3 = [("a.bbl.tex".data)] ∧
    mainTex archiveC3 = none := by
  refine ⟨by decide, by decide, by decide⟩

/-- C3 amended: for an archive with exactly one `.bbl` member, the
resolver selects the `.tex` file with the matching stem provided the
substring `.bbl` occurs in the member's name only as its trailing
extension (then deleting all `.bbl` occurrences equals stripping the
extension), and that `.tex` file is present — regardless of any other
`.tex` members. -/
theorem claim_C3_amended :
    ∀ (archive : List (List Char × List Nat)) (stem : List Char),
      bblNames archive = [stem ++ (".bbl".data)] →
      (∀ i < stem.length, ¬ ((".bbl".data)).isPrefixOf ((stem ++ (".bbl".data)).drop i) = true) →
      (stem ++ (".tex".data)) ∈ texFileNames archive →
      mainTex archive = some (stem ++ (".tex".data)) := by
  intro archive stem hbbl hocc hmem
  have hcand : bblToTexCandidate (stem ++ (".bbl".data)) = stem ++ (".tex".data) := by
    unfold bblToTexCandidate
    rw [replaceAll_del_trailing (by decide) stem hocc]
  have hby : mainTexByBbl archive = some (stem ++ (".tex".data)) := by
    unfold mainTexByBbl
    rw [hbbl]
    show (if (texFileNames archive).contains (bblToTexCandidate (stem ++ (".bbl".data)))
        then some (bblToTexCandidate (stem ++ (".bbl".data))) else none) = _
    rw [hcand, if_pos (List.elem_eq_true_of_mem hmem)]
  unfold mainTex
  rw [hby]

/-- C3 witness archive: one `.bbl` member `doc.bbl` and the matching
`doc.tex` beside another `.tex` file. -/
def archiveC3W : List (List Char × List Nat) :=
  [(("doc.tex".data), asciiBytes "x"), (("other.tex".data), asciiBytes "y"),
    (("doc.bbl".data), asciiBytes "z")]

/-- C3 witness: the amended claim applied to `archiveC3W`. -/
theorem claim_C3_witness : mainTex archiveC3W = some (("doc".data) ++ (".tex".data)) :=
  claim_C3_amended archiveC3W ("doc".data) (by decide) (by decide) (by decide)

/-- C10: the root candidate for a single `.bbl` member is obtained by
deleting every occurrence of `.bbl` from the name and appending `.tex`:
a single member named `a.bbl.bbl` yields candidate `a.tex`, so whenever
`a.tex` is among the `.tex` members the resolver picks it. -/
theorem claim_C10 :
    ∀ (archive : List (List Char × List Nat)),
      bblNames archive = [("a.bbl.bbl".data)] →
      ("a.tex".data) ∈ texFileNames archive →
      mainTex archive = some ("a.tex".data) := by
  intro archive hbbl hmem
  have hcand : bblToTexCandidate ("a.bbl.bbl".data) = ("a.tex".data) := by decide
  have hby : mainTexByBbl archive = some ("a.tex".data) := by
    unfold mainTexByBbl
    rw [hbbl]
    show (if (texFileNames archive).contains (bblToTexCandidate ("a.bbl.bbl".data))
        then some (bblToTexCandidate ("a.bbl.bbl".data)) else none) = _
    rw [hcand, if_pos (List.elem_eq_true_of_mem hmem)]
  unfold mainTex
  rw [hby]

/-- C10 witness archive: members `a.tex` and `a.bbl.bbl`. -/
def archiveC10W : List (List Char × List Nat) :=
  [(("a.tex".data), asciiBytes "x"), (("a.bbl.bbl".data), asciiBytes "y")]

/-- C10 witness: the candidate derived from `a.bbl.bbl` is `a.tex` and it
is selected as root. -/
theorem claim_C10_witness : mainTex archiveC10W = some ("a.tex".data) :=
  claim_C10 archiveC10W (by decide) (by decide)

/-- C5 counterexample: the comment stripper's pattern `%.*\n` matches an
escaped `\%` as well, so the text after `ab\%` is deleted rather than
kept — the backslash survives but everything from the `%` to the end of
the line is gone. -/
theorem claim_C5_counterexample :
    stripLineComments ("ab\\% keep\nrest".data) = ("ab\\\nrest".data) ∧
    stripLineComments ("ab\\% keep\nrest".data) ≠ ("ab\\% keep\nrest".data) := by
  refine ⟨by decide, by decide⟩

/-- C5 amended: the comment-removal step deletes the text from any `%`
(escaped or not) up to and including the rest of the line whenever a
newline terminator follows, emitting a single newline in its place; text
before the `%` — including a preceding backslash — is kept, and a `%`
with no later newline removes nothing. -/
theorem claim_C5_amended :
    ∀ pre mid rest : List Char, '%' ∉ pre → '\n' ∉ mid →
      stripLineComments (pre ++ ('%' :: (mid ++ '\n' :: rest))) =
        pre ++ ('\n' :: stripLineComments rest) := by
  intro pre mid rest hpre hmid
  induction pre with
  | nil =>
    rw [List.nil_append, List.nil_append]
    exact stripLineComments_pct hmid rest
  | cons c pre' ih =>
    have hc : c ≠ '%' := fun hcc => hpre (hcc ▸ List.mem_cons_self c pre')
    have hpre' : '%' ∉ pre' := fun hm => hpre (List.mem_cons_of_mem c hm)
    rw [List.cons_append, stripLineComments_cons_ne hc, ih hpre', List.cons_append]

/-- C5 witness: the amended claim at a line whose `%` is escaped. -/
theorem claim_C5_witness :
    stripLineComments (("ab\\".data) ++ ('%' :: ((" keep".data) ++ '\n' :: ("rest".data)))) =
      ("ab\\".data) ++ ('\n' :: stripLineComments ("rest".data)) :=
  claim_C5_amended ("ab\\".data) (" keep".data) ("rest".data) (by decide) (by decide)

/-- C7 counterexample: noise stripping is not idempotent.  Deleting the
`\\` pair inside `\begin{com\\ment}` creates a well-formed
`\begin{comment}` block that only the second application removes. -/
theorem claim_C7_counterexample :
    stripNoise ("\\begin\x7bcom\\\\ment\x7dx\\end\x7bcomment\x7d".data) =
      ("\\begin\x7bcomment\x7dx\\end\x7bcomment\x7d".data) ∧
    stripNoise (stripNoise ("\\begin\x7bcom\\\\ment\x7dx\\end\x7bcomment\x7d".data)) = [] ∧
    stripNoise (stripNoise ("\\begin\x7bcom\\\\ment\x7dx\\end\x7bcomment\x7d".data)) ≠
      stripNoise ("\\begin\x7bcom\\\\ment\x7dx\\end\x7bcomment\x7d".data) := by
  refine ⟨by decide, by decide, by decide⟩

/-- C7 amended: noise stripping is a pure per-file transform — in the
extraction loop, the content stored for a `.tex` member depends only on
that member's own raw bytes (decoded, then stripped), never on any other
file of the archive.  Idempotence, however, fails (see the
counterexample). -/
theorem claim_C7_amended :
    ∀ (archive : List (List Char × List Nat)) (t : List Char) (b : List Nat),
      (archive.map Prod.fst).Nodup → (t, b) ∈ archive →
      (".tex".data).isSuffixOf t = true →
      List.lookup t (texFileContents archive) = some (stripNoise (decodeUtf8Ignore b)) := by
  intro archive t b hnd hmem hsuf
  have htex : t ∈ texFileNames archive := by
    unfold texFileNames
    rw [List.mem_filter]
    exact ⟨List.mem_map_of_mem Prod.fst hmem, hsuf⟩
  unfold texFileContents
  rw [foldl_dictInsert_lookup (strippedOf archive) (texFileNames archive) [] htex]
  unfold strippedOf
  rw [lookup_of_mem_nodup hnd hmem]
  rfl

/-- C7 witness archive: two distinct `.tex` members. -/
def archiveC7W : List (List Char × List Nat) :=
  [(("m.tex".data), asciiBytes "q"), (("n.tex".data), asciiBytes "r")]

/-- C7 witness: the stored content of `m.tex` is exactly the stripped
decode of its own bytes. -/
theorem claim_C7_witness :
    List.lookup ("m.tex".data) (texFileContents archiveC7W) =
      some (stripNoise (decodeUtf8Ignore (asciiBytes "q"))) :=
  claim_C7_amended archiveC7W ("m.tex".data) (asciiBytes "q") (by decide) (by decide)
    (by decide)

/-- An archive with one `.bbl` and one `.tex` member, to observe that
`.bbl` members are never decoded into the file table. -/
def archiveC8 : List (List Char × List Nat) :=
  [(("x.bbl".data), asciiBytes "bibliography"), (("y.tex".data), asciiBytes "t")]

/-- C8 counterexample: decoding uses `errors='ignore'`, not replacement:
the invalid byte `0xFF` between `a` and `b` is silently dropped — the
output is two characters with no U+FFFD substitute — and `.bbl` members
are not decoded at all: the file table has no entry for `x.bbl`. -/
theorem claim_C8_counterexample :
    decodeUtf8Ignore [0x61, 0xFF, 0x62] = ("ab".data) ∧
    (decodeUtf8Ignore [0x61, 0xFF, 0x62]).length = 2 ∧
    '\uFFFD' ∉ decodeUtf8Ignore [0x61, 0xFF, 0x62] ∧
    List.lookup ("x.bbl".data) ((texOfArchive archiveC8).getD []) = none := by
  refine ⟨by decide, by decide, by decide, by decide⟩

/-- C8 amended: only `.tex` members are decoded, with invalid byte
sequences silently dropped rather than replaced; decoding is total and
never raises.  In particular an invalid `0xFF` byte between two ASCII
runs disappears from the output. -/
theorem claim_C8_amended :
    ∀ l₁ l₂ : List Nat, (∀ x ∈ l₁, x < 0x80) → (∀ x ∈ l₂, x < 0x80) →
      decodeUtf8Ignore (l₁ ++ 0xFF :: l₂) = l₁.map Char.ofNat ++ l₂.map Char.ofNat := by
  intro l₁ l₂ h₁ h₂
  induction l₁ with
  | nil =>
    rw [List.nil_append, decodeUtf8Ignore_invalid_cons (by omega), List.map_nil,
      List.nil_append, decodeUtf8Ignore_ascii_list h₂]
  | cons x r ih =>
    rw [List.cons_append, decodeUtf8Ignore_ascii_cons (h₁ x (List.mem_cons_self x r)),
      List.map_cons, List.cons_append, ih (fun y hy => h₁ y (List.mem_cons_of_mem x hy))]

/-- C8 witness: the amended claim at `a b 0xFF c`. -/
theorem claim_C8_witness :
    decodeUtf8Ignore ([0x61, 0x62] ++ 0xFF :: [0x63]) =
      [0x61, 0x62].map Char.ofNat ++ [0x63].map Char.ofNat :=
  claim_C8_amended [0x61, 0x62] [0x63] (by decide) (by decide)

/-- C2 counterexample: the flattener never substitutes the `\include`
literal form, so an `\include{sec1}` marker survives although `sec1.tex`
is a table key; and a nested `\input{b}` inside substituted content
survives when `b` is not referenced by the root, although `b.tex` is a
table key. -/
theorem claim_C2_counterexample :
    flattenIncludes ("\\include\x7bsec1\x7d".data) [(("sec1.tex".data), ("Z".data))] =
      ("\\include\x7bsec1\x7d".data) ∧
    occursB (includeMarker ("sec1".data))
      (flattenIncludes ("\\include\x7bsec1\x7d".data) [(("sec1.tex".data), ("Z".data))]) =
      true ∧
    flattenIncludes ("\\input\x7ba\x7d".data)
      [(("a.tex".data), ("x\\input\x7bb\x7dy".data)), (("b.tex".data), ("Z".data))] =
      ("x\\input\x7bb\x7dy".data) ∧
    occursB (inputMarker ("b".data))
      (flattenIncludes ("\\input\x7ba\x7d".data)
        [(("a.tex".data), ("x\\input\x7bb\x7dy".data)), (("b.tex".data), ("Z".data))]) =
      true := by
  refine ⟨by decide, by decide, by decide, by decide⟩

/-- C2 amended: when every backslash of the root's stripped text begins a
complete `\input{...}`/`\include{...}` marker over well-formed discovered
names and the table's values contain no backslash, the flattened `"all"`
text contains no `\input{name}` marker at all for any well-formed name —
in particular none whose target file is a table key.  `\include{name}`
markers are never substituted and may remain, and markers inside
substituted content or junctions are outside this guarantee (see the
counterexample). -/
theorem claim_C2_amended :
    ∀ (src : List Char) (table : List (List Char × List Char)),
      invariantB (discoveredNames src) src = true →
      (∀ f ∈ discoveredNames src, wfName f) →
      (∀ kv ∈ table, '\\' ∉ kv.2) →
      ∀ g, wfName g → occursB (inputMarker g) (flattenIncludes src table) = false := by
  intro src table hinv hwf hv g hg
  rw [flattenIncludes_eq_fold]
  exact noocc_of_inv hwf _ (flattenFold_inv hwf hv _ _ hinv)
    (fun f hf => flattenFold_noocc hwf hv _ hwf _ hinv f hf) g hg

/-- C2 witness root text and table. -/
def srcC2W : List Char := "\\input\x7ba\x7d text \\include\x7bb\x7d".data

/-- C2 witness table. -/
def tableC2W : List (List Char × List Char) :=
  [(("a.tex".data), ("AAA".data)), (("b.tex".data), ("BBB".data))]

/-- C2 witness: no `\input{c}` marker occurs in the flattened text. -/
theorem claim_C2_witness :
    occursB (inputMarker ("c".data)) (flattenIncludes srcC2W tableC2W) = false :=
  claim_C2_amended srcC2W tableC2W (by decide) (by decide) (by decide) ("c".data) (by decide)

/-- C6 counterexample: the `\input{b}` directive inside `a.tex`'s content
is expanded after substitution, because `b` is also referenced by the
root and processed later — inserted content is rescanned by subsequent
replacements, contradicting the claim that it never is. -/
theorem claim_C6_counterexample :
    flattenIncludes ("\\input\x7ba\x7d \\input\x7bb\x7d".data)
      [(("a.tex".data), ("x\\input\x7bb\x7dy".data)), (("b.tex".data), ("Z".data))] =
      ("xZy Z".data) ∧
    ("xZy Z".data) ≠ ("x\\input\x7bb\x7dy Z".data) := by
  refine ⟨by decide, by decide⟩

/-- C6 amended: the flattening is equivalent to a genuine single
non-recursive pass — each discovered marker in the root replaced once,
nothing rescanned — provided every backslash of the root begins a
complete marker over well-formed names and the substituted contents
contain no backslash (hence no directives).  Without that proviso, a
directive inserted by substitution is expanded whenever its name is also
discovered in the root and processed later (see the counterexample). -/
theorem claim_C6_amended :
    ∀ (src : List Char) (table : List (List Char × List Char)),
      invariantB (discoveredNames src) src = true →
      (∀ f ∈ discoveredNames src, wfName f) →
      (∀ kv ∈ table, '\\' ∉ kv.2) →
      flattenIncludes src table = simulSubst table (discoveredNames src) src := by
  intro src table hinv hwf hv
  rw [flattenIncludes_eq_fold]
  exact flattenFold_eq_simul hwf hv src.length src (Nat.le_refl _) hinv

/-- C6 witness root text. -/
def srcC6W : List Char := "pre \\input\x7bs1\x7d mid \\include\x7bs2\x7d post".data

/-- C6 witness table. -/
def tableC6W : List (List Char × List Char) :=
  [(("s1.tex".data), ("ONE".data)), (("s2.tex".data), ("TWO".data))]

/-- C6 witness: on a root whose contents are command-free, the
sequential fold equals the one-pass reference substitution. -/
theorem claim_C6_witness :
    flattenIncludes srcC6W tableC6W = simulSubst tableC6W (discoveredNames srcC6W) srcC6W :=
  claim_C6_amended srcC6W tableC6W (by decide) (by decide) (by decide)

/-- C4 counterexample: `group(0)` of the introduction regex includes the
matched boundary token — the span for
`\section{Introduction}AB\section{Methods}C` ends with the literal
`\section`, not strictly before it. -/
theorem claim_C4_counterexample :
    extractSectionCmd ("\\section\x7bIntroduction\x7d".data)
      ("\\section\x7bIntroduction\x7dAB\\section\x7bMethods\x7dC".data) =
      ("\\section\x7bIntroduction\x7dAB\\section".data) ∧
    extractSectionCmd ("\\section\x7bIntroduction\x7d".data)
      ("\\section\x7bIntroduction\x7dAB\\section\x7bMethods\x7dC".data) ≠
      ("\\section\x7bIntroduction\x7dAB".data) := by
  refine ⟨by decide, by decide⟩

/-- C4 amended: the extractor returns the span from the first
`\section{Introduction}` up to the next boundary with the boundary token
itself INCLUDED in the returned span (the end-of-text anchor contributes
nothing): when the heading does not occur earlier and the intermediate
text contains no boundary token, the result is exactly
heading ++ mid ++ `\section`. -/
theorem claim_C4_amended :
    ∀ pre mid rest : List Char,
      (∀ k < pre.length,
        ¬ (("\\section\x7bIntroduction\x7d".data)).isPrefixOf
          ((pre ++ (("\\section\x7bIntroduction\x7d".data) ++
            (mid ++ (("\\section".data) ++ rest)))).drop k) = true) →
      (∀ k < mid.length, boundaryHead ((mid ++ (("\\section".data) ++ rest)).drop k) = none) →
      extractSectionCmd ("\\section\x7bIntroduction\x7d".data)
        (pre ++ (("\\section\x7bIntroduction\x7d".data) ++
          (mid ++ (("\\section".data) ++ rest)))) =
        ("\\section\x7bIntroduction\x7d".data) ++ (mid ++ ("\\section".data)) := by
  intro pre mid rest h1 h2
  rw [extractSectionCmd_skip pre _ h1]
  rw [extractSectionCmd_head (by decide) _]
  rw [sectionSpan_through_mid mid rest h2]

/-- C4 witness: concrete introduction extraction including the boundary
token. -/
theorem claim_C4_witness :
    extractSectionCmd ("\\section\x7bIntroduction\x7d".data)
      (("P ".data) ++ (("\\section\x7bIntroduction\x7d".data) ++
        ((" body ".data) ++ (("\\section".data) ++ ("\x7bMethods\x7dT".data))))) =
      ("\\section\x7bIntroduction\x7d".data) ++ ((" body ".data) ++ ("\\section".data)) :=
  claim_C4_amended ("P ".data) (" body ".data) ("\x7bMethods\x7dT".data) (by decide)
    (by decide)

/-- C9: in a resolved file table, every key other than the synthetic
`"all"` ends in `.tex`, and inserting the `"all"` entry never overwrites
a file entry: every entry of the extraction loop's table is still
present (with its value wrapped in `some`). -/
theorem claim_C9 :
    ∀ (archive : List (List Char × List Nat)) (table : List (List Char × Option (List Char))),
      texOfArchive archive = some table →
      (∀ kv ∈ table, kv.1 = ("all".data) ∨ (".tex".data).isSuffixOf kv.1 = true) ∧
      (∀ kv ∈ texFileContents archive, (kv.1, some kv.2) ∈ table) := by
  intro archive table h
  unfold texOfArchive at h
  by_cases hemp : texFileNames archive = []
  · rw [if_pos hemp] at h
    exact absurd h (by simp)
  · rw [if_neg hemp] at h
    have htab : table = dictInsert ("all".data) (texAllEntry archive)
        ((texFileContents archive).map (fun kv => (kv.1, some kv.2))) :=
      (Option.some.inj h).symm
    subst htab
    constructor
    · intro kv hkv
      rcases mem_dictInsert_elim hkv with hkv | hkv
      · exact Or.inl (by rw [hkv])
      · obtain ⟨kv₀, hkv₀, hkveq⟩ := List.mem_map.mp hkv
        unfold texFileContents at hkv₀
        rcases foldl_dictInsert_keys (strippedOf archive) _ _ hkv₀ with hk | hk
        · right
          have hkk : kv.1 = kv₀.1 := by rw [← hkveq]
          rw [hkk]
          unfold texFileNames at hk
          exact (List.mem_filter.mp hk).2
        · exact absurd hk (List.not_mem_nil kv₀)
    · intro kv hkv
      have hsuf : (".tex".data).isSuffixOf kv.1 = true := by
        have hkv' := hkv
        unfold texFileContents at hkv'
        rcases foldl_dictInsert_keys (strippedOf archive) _ _ hkv' with hk | hk
        · unfold texFileNames at hk
          exact (List.mem_filter.mp hk).2
        · exact absurd hk (List.not_mem_nil kv)
      have hne : kv.1 ≠ ("all".data) := by
        intro heq
        rw [heq] at hsuf
        exact absurd hsuf (by decide)
      have hmm : (kv.1, some kv.2) ∈
          (texFileContents archive).map (fun kv => (kv.1, some kv.2)) :=
        List.mem_map.mpr ⟨kv, hkv, rfl⟩
      have hne' : ((kv.1, some kv.2) : List Char × Option (List Char)).1 ≠ ("all".data) := hne
      exact mem_dictInsert_of_ne hne' hmm

/-- C9 witness archive: one `.tex` member. -/
def archiveC9W : List (List Char × List Nat) := [(("m.tex".data), asciiBytes "q")]

/-- C9 witness table: the resolved table of `archiveC9W`. -/
def tableC9W : List (List Char × Option (List Char)) :=
  [(("m.tex".data), some ("q".data)), (("all".data), some ("q".data))]

/-- C9 witness: keys and preservation on the concrete table. -/
theorem claim_C9_witness :
    (∀ kv ∈ tableC9W, kv.1 = ("all".data) ∨ (".tex".data).isSuffixOf kv.1 = true) ∧
    (∀ kv ∈ texFileContents archiveC9W, (kv.1, some kv.2) ∈ tableC9W) :=
  claim_C9 archiveC9W tableC9W (by decide)
